import Mathlib

/-!
Verification of the noise protocol libp2p layer
(`src/network2/libp2p/connection/noise.rs`).

The module implements the handshake state machine and post-handshake
transport cipher on top of the opaque `snow` engine.  Bytes are modelled as
`Nat`, byte buffers as `List Nat`.  The external collaborators (the `snow`
XX handshake engine, the protobuf payload codec, libp2p key decoding,
signature verification and `PeerId` derivation) are out of scope of the
repository and are abstracted as a bundle of oracle functions `CryptoOps`;
the turn/completion discipline of the XX engine itself is modelled from the
spec (3 messages, strict alternation starting with the initiator).
-/

namespace NoiseSpec

/-- Errors of the noise handshake, mirroring `HandshakeError` in the source. -/
inductive HandshakeError where
  | Cipher
  | PayloadDecode
  | InvalidKey
  | UnexpectedPayload
  | SignatureVerificationFailed
deriving DecidableEq, Repr

/-- Result of a handshake operation: success, a typed protocol error, or a
Rust panic (`unwrap`/`assert!`/`unreachable!`/arithmetic overflow). -/
inductive HRes (α : Type) where
  | ok (a : α)
  | err (e : HandshakeError)
  | panic
deriving DecidableEq, Repr

/-- Decoded libp2p-extension payload carried inside handshake messages 2 and
3, mirroring `payload_proto::NoiseHandshakePayload`. -/
structure HandshakePayload where
  identity_key : List Nat
  identity_sig : List Nat
deriving DecidableEq, Repr

/-- Modelled from the spec: bundle of the external collaborators that the
core treats as opaque (spec section 1, "OUT OF SCOPE").  `readOracle` and
`writeMsg` are the cryptographic read/write operations of the `snow`
handshake engine (indexed by the number of handshake messages already
exchanged), `tread`/`twrite` are the transport cipher's open/seal
(indexed by a message counter), `remoteStatic` is the remote static key the
engine observes during the exchange, `decodePayload` is the protobuf
decoder, `decodeKey` decodes a libp2p public key from its protobuf
encoding, `verify` checks a signature, `peerIdOf` derives a `PeerId`. -/
structure CryptoOps where
  readOracle : Nat → List Nat → Option (List Nat)
  writeMsg : Nat → List Nat → List Nat
  remoteStatic : List Nat
  decodePayload : List Nat → Option HandshakePayload
  decodeKey : List Nat → Option (List Nat)
  verify : List Nat → List Nat → List Nat → Bool
  peerIdOf : List Nat → List Nat
  tread : Nat → List Nat → Option (List Nat)
  twrite : Nat → List Nat → List Nat

/-- Modelled from the spec: in the XX pattern message `i` is sent by the
initiator when `i` is even and by the responder when `i` is odd. -/
def sentByInitiator (i : Nat) : Bool := i % 2 == 0

/-- Modelled from the spec: the engine is finished once the three handshake
messages have been exchanged (`snow::HandshakeState::is_handshake_finished`). -/
def engineFinished (c : Nat) : Bool := decide (3 ≤ c)

/-- Modelled from the spec: it is this party's turn to produce the next
handshake message (`snow::HandshakeState::is_my_turn`). -/
def writePos (isInit : Bool) (c : Nat) : Bool :=
  decide (c < 3) && (sentByInitiator c == isInit)

/-- Modelled from the spec: the engine accepts an inbound handshake message
exactly when the next message of the pattern is sent by the other party. -/
def readPos (isInit : Bool) (c : Nat) : Bool :=
  decide (c < 3) && (sentByInitiator c != isInit)

/-- Modelled from the spec: `snow::HandshakeState::read_message`.  A read in
the wrong state or a cryptographic failure is an error (`none`); otherwise
the decrypted payload of the message is produced by the oracle. -/
def engineRead (ops : CryptoOps) (isInit : Bool) (c : Nat) (ct : List Nat) :
    Option (List Nat) :=
  if readPos isInit c then ops.readOracle c ct else none

/-- Modelled from the spec: `snow::HandshakeState::get_remote_static`.  The
initiator learns the remote static key from message 2 (so after 2 messages
were exchanged), the responder from message 3. -/
def getRemoteStatic (ops : CryptoOps) (isInit : Bool) (c : Nat) :
    Option (List Nat) :=
  if (isInit && decide (2 ≤ c)) || (!isInit && decide (3 ≤ c)) then
    some ops.remoteStatic
  else none

/-- The noise key of this node: only its pre-serialized signed identity
payload (`NoiseKey::handshake_message`) is relevant to the state machine. -/
structure NoiseKey where
  handshake_message : List Nat
deriving DecidableEq, Repr

/-- ASCII bytes of the domain-separation string prepended to the remote
static key before signature verification. -/
def noiseStaticKeyDomain : List Nat :=
  ("noise-libp2p-static-key:".data.map Char.toNat)

/-- State of the remote payload reception, mirroring `RxPayload`. -/
inductive RxPayload where
  | Received (peerId : List Nat)
  | NthMessage (n : Nat)
deriving DecidableEq, Repr

/-- The handshake session, mirroring `HandshakeInProgress`.  The opaque
`snow::HandshakeState` is represented by the role flag together with the
count of handshake messages exchanged so far. -/
structure HandshakeInProgress where
  isInitiator : Bool
  msgCount : Nat
  tx_payload : Option (Nat × List Nat)
  rx_payload : RxPayload
  rx_messages_remain : Nat
  rx_buffer_encrypted : List Nat
  tx_buffer_encrypted : List Nat
deriving DecidableEq, Repr

/-- Post-handshake transport state, mirroring `Noise`.  The opaque
`snow::TransportState` is represented by the two message counters. -/
structure Noise where
  readNonce : Nat
  writeNonce : Nat
  rx_buffer_encrypted : List Nat
  rx_buffer_decrypted : List Nat
deriving DecidableEq, Repr

/-- State of a noise handshake, mirroring `NoiseHandshake`. -/
inductive NoiseHandshake where
  | InProgress (h : HandshakeInProgress)
  | Success (cipher : Noise) (remote_peer_id : List Nat)
deriving DecidableEq, Repr

/-- Big-endian 2-byte length prefix of a frame (`u16::to_be_bytes`). -/
def lenBytesOf (n : Nat) : List Nat := [n / 256, n % 256]

/-- Length of the frame declared by the first two (big-endian) bytes of a
buffer (`u16::from_be_bytes` on `buf[..2]`). -/
def declaredLen (buf : List Nat) : Nat := buf.getD 0 0 * 256 + buf.getD 1 0

/-- Mirrors `HandshakeInProgress::update_message_write`: if it is this
party's turn, take the pending payload if it is scheduled for this message
(otherwise decrement its countdown), produce the next engine message,
and queue it behind its 2-byte length prefix.  The source `assert!`s that
the produced message fits the 512-byte staging buffer; a violation is a
panic, modelled as `none`.  (A `debug_assert!` guarantees the outbound
queue is empty at this point.) -/
def update_message_write (ops : CryptoOps) (h : HandshakeInProgress) :
    Option HandshakeInProgress :=
  if writePos h.isInitiator h.msgCount then
    let pr : List Nat × Option (Nat × List Nat) :=
      match h.tx_payload with
      | none => ([], none)
      | some (0, pl) => (pl, none)
      | some (Nat.succ n, pl) => ([], some (n, pl))
    let msg := ops.writeMsg h.msgCount pr.1
    if msg.length < 512 then
      some { h with
        msgCount := h.msgCount + 1,
        tx_payload := pr.2,
        tx_buffer_encrypted :=
          h.tx_buffer_encrypted ++ (lenBytesOf msg.length ++ msg) }
    else none
  else some h

/-- Builds the transport cipher state handed over on handshake success
(`Noise` construction inside `try_finish`). -/
def noiseFromHandshake (h : HandshakeInProgress) : Noise :=
  { readNonce := 0
    writeNonce := 0
    rx_buffer_encrypted := h.rx_buffer_encrypted
    rx_buffer_decrypted := [] }

/-- Mirrors `HandshakeInProgress::try_finish`: the session turns into
`Success` only when the outbound queue is empty and the engine reports the
exchange finished; reaching that point without the remote payload is the
source's `unreachable!`, modelled as `none` (panic). -/
def try_finish (h : HandshakeInProgress) : Option NoiseHandshake :=
  if h.tx_buffer_encrypted.isEmpty = false then some (.InProgress h)
  else if engineFinished h.msgCount = false then some (.InProgress h)
  else
    match h.rx_payload with
    | .Received peerId => some (.Success (noiseFromHandshake h) peerId)
    | .NthMessage _ => none

/-- Mirrors `HandshakeInProgress::new`: configure the role-dependent payload
schedule of the XX pattern, then immediately attempt to produce the first
outbound message.  `none` models the (engine-dependent) panic of the write
assertion. -/
def HandshakeInProgress.new (ops : CryptoOps) (key : NoiseKey)
    (is_initiator : Bool) : Option HandshakeInProgress :=
  let cfg : Option (Nat × List Nat) × RxPayload × Nat :=
    if is_initiator then
      (some (1, key.handshake_message), .NthMessage 0, 1)
    else
      (some (0, key.handshake_message), .NthMessage 1, 2)
  update_message_write ops
    { isInitiator := is_initiator
      msgCount := 0
      tx_payload := cfg.1
      rx_payload := cfg.2.1
      rx_messages_remain := cfg.2.2
      rx_buffer_encrypted := []
      tx_buffer_encrypted := [] }

/-- Decoding of the libp2p-extension payload with the rust-libp2p
interoperability fallback (the isolated compatibility shim inside
`inject_data`): try the standard protobuf decode first and, only if it
fails and at least two bytes are present, retry after skipping the first
two bytes. -/
def decodeWithFallback (ops : CryptoOps) (bytes : List Nat) :
    Option HandshakePayload :=
  match ops.decodePayload bytes with
  | some p => some p
  | none =>
    if 2 ≤ bytes.length then ops.decodePayload (bytes.drop 2)
    else none

/-- Tail of `inject_data` after a handshake message has been processed:
produce the next outbound message if it is now this party's turn, then
attempt completion.  Panics of the write assertion and of `try_finish` are
propagated. -/
def finishMessage (ops : CryptoOps) (h : HandshakeInProgress) (total : Nat) :
    HRes (NoiseHandshake × Nat) :=
  match update_message_write ops h with
  | none => .panic
  | some h2 =>
    match try_finish h2 with
    | none => .panic
    | some st => .ok (st, total)

/-- Tail of `inject_data` once a full handshake message has been assembled
and handed to the engine: the decrypted payload `plain` (truncated to the
`expected_len` output window) is matched against the payload schedule,
the identity payload is decoded and its signature verified when it is
expected, and the message-write/completion steps follow.  `e2` is the
declared frame length and `total` the bytes consumed by the call. -/
def processMessage (ops : CryptoOps) (h : HandshakeInProgress)
    (plain : List Nat) (e2 : Nat) (total : Nat) : HRes (NoiseHandshake × Nat) :=
  let decoded := plain.take e2
  let h1 : HandshakeInProgress :=
    { h with
      msgCount := h.msgCount + 1
      rx_buffer_encrypted := []
      rx_messages_remain := h.rx_messages_remain - 1 }
  match h.rx_payload with
  | .NthMessage 0 =>
    match decodeWithFallback ops decoded with
    | none => .err .PayloadDecode
    | some hp =>
      match ops.decodeKey hp.identity_key with
      | none => .err .InvalidKey
      | some key =>
        match getRemoteStatic ops h1.isInitiator h1.msgCount with
        | none => .panic
        | some rs =>
          if ops.verify key (noiseStaticKeyDomain ++ rs) hp.identity_sig
          then
            finishMessage ops
              { h1 with rx_payload := .Received (ops.peerIdOf key) } total
          else .err .SignatureVerificationFailed
  | .NthMessage (Nat.succ n) =>
    if decoded.isEmpty then
      finishMessage ops { h1 with rx_payload := .NthMessage n } total
    else .err .UnexpectedPayload
  | .Received peerId =>
    if decoded.isEmpty then
      finishMessage ops { h1 with rx_payload := .Received peerId } total
    else .err .UnexpectedPayload

/-- Mirrors `HandshakeInProgress::inject_data`.  The source's byte-by-byte
while-loop that assembles the 2-byte length prefix and the bounded copy
into `rx_buffer_encrypted` are expressed with `take`/`drop`; at most one
handshake message is processed per call.  Rust panics (`unwrap` on
`get_remote_static`, the write assertion, `unreachable!` in `try_finish`)
are modelled as `.panic`. -/
def injectData (ops : CryptoOps) (h : HandshakeInProgress) (p : List Nat) :
    HRes (NoiseHandshake × Nat) :=
  if h.rx_messages_remain = 0 then .ok (.InProgress h, 0)
  else if h.rx_buffer_encrypted.length + p.length < 2 then
    .ok (.InProgress { h with rx_buffer_encrypted := h.rx_buffer_encrypted ++ p },
         p.length)
  else
    let need := 2 - h.rx_buffer_encrypted.length
    let rx1 := h.rx_buffer_encrypted ++ p.take need
    let p1 := p.drop need
    let e2 := declaredLen rx1
    let toCopy := min (e2 + 2 - rx1.length) p1.length
    let rx2 := rx1 ++ p1.take toCopy
    let total := need + toCopy
    if rx2.length < e2 + 2 then
      .ok (.InProgress { h with rx_buffer_encrypted := rx2 }, total)
    else
      match engineRead ops h.isInitiator h.msgCount (rx2.drop 2) with
      | none => .err .Cipher
      | some plain => processMessage ops h plain e2 total

/-- Mirrors `HandshakeInProgress::write_out`: drain as many queued outbound
bytes as fit into the destination (represented by its length), then attempt
completion. -/
def write_out (h : HandshakeInProgress) (destLen : Nat) :
    Option (NoiseHandshake × Nat) :=
  let n := min h.tx_buffer_encrypted.length destLen
  (try_finish { h with tx_buffer_encrypted := h.tx_buffer_encrypted.drop n }).map
    (fun st => (st, n))

/-- Result of a transport-cipher operation: the new state together with the
number of input bytes consumed, a fatal `CipherError`, or a Rust panic. -/
inductive TRes where
  | ok (s : Noise) (consumed : Nat)
  | cipherError
  | panic
deriving DecidableEq, Repr

/-- High-water mark of the decrypted-output queue (`65536 * 4` bytes). -/
def rxQueueThreshold : Nat := 65536 * 4

/-- One iteration of the `inject_inbound_data` loop, with the continuation
of the loop abstracted as `rec`.  Mirroring the source: stop at the
backpressure threshold; assemble the 2-byte prefix (the byte-by-byte
while-loop is expressed with `take`/`drop`); if the full frame is not
available buffer everything offered and stop; otherwise decrypt the frame
(the source builds the same ciphertext slice either directly from `payload`
or via `rx_buffer_encrypted`), append the plaintext truncated to the
`expected_len - 16` output window, and continue.  A declared frame length
below 16 makes the source's `rx_buffer_decrypted.resize(len_before +
expected_len - 16, 0)` underflow its `usize` subtraction, a panic. -/
def injectStepFn (ops : CryptoOps) (rec : Noise → List Nat → TRes)
    (s : Noise) (p : List Nat) : TRes :=
  if rxQueueThreshold ≤ s.rx_buffer_decrypted.length then .ok s 0
  else if s.rx_buffer_encrypted.length + p.length < 2 then
    .ok { s with rx_buffer_encrypted := s.rx_buffer_encrypted ++ p } p.length
  else
    let need := 2 - s.rx_buffer_encrypted.length
    let rx1 := s.rx_buffer_encrypted ++ p.take need
    let p1 := p.drop need
    let e2 := declaredLen rx1
    if rx1.length + p1.length < e2 + 2 then
      .ok { s with rx_buffer_encrypted := rx1 ++ p1 } p.length
    else
      let toCopy := e2 + 2 - rx1.length
      let toDecode := (rx1 ++ p1.take toCopy).drop 2
      let p2 := p1.drop toCopy
      if e2 < 16 then .panic
      else
        match ops.tread s.readNonce toDecode with
        | none => .cipherError
        | some plain =>
          let s' : Noise :=
            { s with
              readNonce := s.readNonce + 1
              rx_buffer_encrypted := []
              rx_buffer_decrypted :=
                s.rx_buffer_decrypted ++ plain.take (e2 - 16) }
          match rec s' p2 with
          | .ok s2 m => .ok s2 (need + toCopy + m)
          | e => e

/-- The `inject_inbound_data` loop as iteration of `injectStepFn`, with an
explicit fuel argument for termination (the wrapper always supplies enough
fuel, see `Noise.inject_inbound_data`). -/
def injectLoop (ops : CryptoOps) : Nat → Noise → List Nat → TRes
  | 0, _, _ => .panic
  | fuel + 1, s, p => injectStepFn ops (injectLoop ops fuel) s p

/-- Mirrors `Noise::inject_inbound_data`.  The fuel is an upper bound on the
number of loop iterations: every iteration that continues consumes a whole
frame (at least 2 bytes) from `rx_buffer_encrypted ++ payload`. -/
def Noise.inject_inbound_data (ops : CryptoOps) (s : Noise) (p : List Nat) :
    TRes :=
  injectLoop ops (s.rx_buffer_encrypted.length + p.length + 1) s p

/-- Mirrors `Noise::decoded_inbound_data`: read-only view of the decrypted
queue. -/
def Noise.decoded_inbound_data (s : Noise) : List Nat := s.rx_buffer_decrypted

/-- Mirrors `Noise::consume_inbound_data`: remove the first `n` bytes of the
decrypted queue one at a time (`Vec::remove(0)` in a loop); removing from an
empty queue is a Rust panic, modelled as `none`. -/
def Noise.consume_inbound_data (s : Noise) : Nat → Option Noise
  | 0 => some s
  | Nat.succ n =>
    match s.rx_buffer_decrypted with
    | [] => none
    | _ :: t =>
      Noise.consume_inbound_data { s with rx_buffer_decrypted := t } n

/-- One structural pass of the `encrypt_inner` loop (fuel-supplied by the
wrapper).  The destination buffer is represented by its free length; the
produced bytes are returned alongside the`(bytes_read, bytes_written)`
counts.  While at least 19 destination bytes remain, take up to
`min 65536 (destination - 18)` plaintext bytes, seal them (`written =
in_len + 16`), and emit the 2-byte big-endian length prefix followed by the
ciphertext.  A sealed message longer than 65535 bytes cannot be written:
`snow` rejects it and the length prefix's `u16::try_from` fails, so the
source's `unwrap`s panic, modelled as `none`. -/
def encryptInner (ops : CryptoOps) :
    Nat → Nat → List Nat → Nat → Option (Nat × Nat × Nat × List Nat)
  | 0, _, _, _ => none
  | fuel + 1, nonce, payload, destLen =>
    if 19 ≤ destLen then
      let inLen := min payload.length (min 65536 (destLen - 18))
      if inLen = 0 then some (nonce, 0, 0, [])
      else
        let cipher := ops.twrite nonce (payload.take inLen)
        if inLen + 16 ≤ 65535 then
          match encryptInner ops fuel (nonce + 1) (payload.drop inLen)
              (destLen - (inLen + 18)) with
          | none => none
          | some (nonce', r, w, out) =>
            some (nonce', inLen + r, (inLen + 18) + w,
                  (lenBytesOf (inLen + 16) ++ cipher) ++ out)
        else none
    else some (nonce, 0, 0, [])

/-- Mirrors `Noise::encrypt`: an empty chunk iterator yields `(0, 0)`;
otherwise the chunks are coalesced (the source concatenates them when there
is more than one) and handed to `encrypt_inner`.  Returns the updated
transport state together with the read/written counts and the produced
bytes; `none` is the panic described at `encryptInner`. -/
def Noise.encrypt (ops : CryptoOps) (s : Noise) (chunks : List (List Nat))
    (destLen : Nat) : Option (Noise × Nat × Nat × List Nat) :=
  if chunks.isEmpty then some (s, 0, 0, [])
  else
    match encryptInner ops (chunks.flatten.length + 1) s.writeNonce
        chunks.flatten destLen with
    | none => none
    | some (nonce', r, w, out) =>
      some ({ s with writeNonce := nonce' }, r, w, out)

/-- Number of handshake messages this party has already produced after `c`
messages of the pattern were exchanged (the initiator sends the messages
with even index). -/
def localWritesDone (isInit : Bool) (c : Nat) : Nat :=
  if isInit then (c + 1) / 2 else c / 2

/-- Number of handshake messages this party has already consumed after `c`
messages of the pattern were exchanged. -/
def localReadsDone (isInit : Bool) (c : Nat) : Nat :=
  if isInit then c / 2 else (c + 1) / 2

/-- Reading of the `tx_payload` countdown: the 1-based index, among this
party's outbound engine messages, of the message that will carry the
identity payload (`None` once the payload has been sent). -/
def txScheduledOutboundIndex (h : HandshakeInProgress) : Option Nat :=
  h.tx_payload.map
    (fun pr => localWritesDone h.isInitiator h.msgCount + pr.1 + 1)

/-- Reading of the `rx_payload` countdown: the 1-based index, among this
party's inbound engine messages, of the message expected to carry the
remote identity payload (`None` once it has been received). -/
def rxExpectedInboundIndex (h : HandshakeInProgress) : Option Nat :=
  match h.rx_payload with
  | .NthMessage n => some (localReadsDone h.isInitiator h.msgCount + n + 1)
  | .Received _ => none

/-- Sample collaborator bundle used by the concrete witnesses. -/
def sampleOps : CryptoOps where
  readOracle := fun c _ => if c = 0 then some [] else some [7]
  writeMsg := fun _ pl => 100 :: pl
  remoteStatic := [42]
  decodePayload := fun b => if b = [7] then some ⟨[1], [2]⟩ else none
  decodeKey := fun b => if b = [1] then some [1] else none
  verify := fun _ _ _ => true
  peerIdOf := fun k => 99 :: k
  tread := fun _ ct => some (ct.drop 16)
  twrite := fun _ pl => pl ++ List.replicate 16 0

/-- Sample noise key used by the concrete witnesses. -/
def sampleKey : NoiseKey := ⟨[5, 6]⟩

/-- A fresh transport session used by the concrete witnesses. -/
def sampleNoise : Noise := ⟨0, 0, [], []⟩

/-- C1.  `HandshakeInProgress::new` sets the XX payload schedule exactly as
the spec describes: an initiator session schedules its identity payload on
its 2nd outbound engine message and expects the remote payload on its 1st
inbound message with 1 inbound handshake message remaining, while a
responder session schedules its payload on its 1st outbound message and
expects the remote payload on its 2nd inbound message with 2 inbound
messages remaining.  (`new` already produces the initiator's first
outbound message, so the returned initiator state has one write done and
`tx_payload` counting down from 0.) -/
theorem claim_C1 (ops : CryptoOps) (key : NoiseKey) :
    (∀ h, HandshakeInProgress.new ops key true = some h →
      txScheduledOutboundIndex h = some 2 ∧
      rxExpectedInboundIndex h = some 1 ∧
      h.rx_messages_remain = 1) ∧
    (∀ h, HandshakeInProgress.new ops key false = some h →
      txScheduledOutboundIndex h = some 1 ∧
      rxExpectedInboundIndex h = some 2 ∧
      h.rx_messages_remain = 2) := by
  constructor
  · intro h hnew
    simp [HandshakeInProgress.new, update_message_write, writePos,
      sentByInitiator] at hnew
    obtain ⟨-, rfl⟩ := hnew
    simp [txScheduledOutboundIndex, rxExpectedInboundIndex,
      localWritesDone, localReadsDone]
  · intro h hnew
    simp [HandshakeInProgress.new, update_message_write, writePos,
      sentByInitiator] at hnew
    subst hnew
    simp [txScheduledOutboundIndex, rxExpectedInboundIndex,
      localWritesDone, localReadsDone]

/-- Witness for C1 at a concrete key and collaborator bundle. -/
theorem claim_C1_witness :
    HandshakeInProgress.new sampleOps sampleKey true =
      some ⟨true, 1, some (0, [5, 6]), .NthMessage 0, 1, [], [0, 1, 100]⟩ ∧
    (txScheduledOutboundIndex
        ⟨true, 1, some (0, [5, 6]), .NthMessage 0, 1, [], [0, 1, 100]⟩ = some 2 ∧
      rxExpectedInboundIndex
        ⟨true, 1, some (0, [5, 6]), .NthMessage 0, 1, [], [0, 1, 100]⟩ = some 1 ∧
      (⟨true, 1, some (0, [5, 6]), .NthMessage 0, 1, [], [0, 1, 100]⟩ :
        HandshakeInProgress).rx_messages_remain = 1) :=
  ⟨rfl, (claim_C1 sampleOps sampleKey).1 _ rfl⟩

/-- C9.  When no more handshake messages are expected inbound
(`rx_messages_remain = 0`), `inject_data` consumes no byte, reports the
session unchanged and still in progress, and is therefore idempotent:
trailing transport-phase bytes are left untouched for hand-off. -/
theorem claim_C9 (ops : CryptoOps) (h : HandshakeInProgress) (p : List Nat)
    (hrem : h.rx_messages_remain = 0) :
    injectData ops h p = .ok (.InProgress h, 0) := by
  simp [injectData, hrem]

/-- Witness for C9 on a concrete drained session. -/
theorem claim_C9_witness :
    (⟨true, 3, none, .Received [99, 1], 0, [], []⟩ :
        HandshakeInProgress).rx_messages_remain = 0 ∧
    injectData sampleOps ⟨true, 3, none, .Received [99, 1], 0, [], []⟩ [1, 2, 3] =
      .ok (.InProgress ⟨true, 3, none, .Received [99, 1], 0, [], []⟩, 0) :=
  ⟨rfl, claim_C9 sampleOps _ _ rfl⟩

/-- Removing `n ≤ length` bytes via the one-at-a-time loop drops exactly
the first `n` bytes of the decrypted queue. -/
theorem consume_inbound_data_le (n : Nat) :
    ∀ s : Noise, n ≤ s.rx_buffer_decrypted.length →
      Noise.consume_inbound_data s n =
        some { s with rx_buffer_decrypted := s.rx_buffer_decrypted.drop n } := by
  induction n with
  | zero => intro s _; simp [Noise.consume_inbound_data]
  | succ n ih =>
    intro s hlen
    match hrx : s.rx_buffer_decrypted with
    | [] => rw [hrx] at hlen; simp at hlen
    | a :: t =>
      rw [hrx] at hlen
      simp only [Noise.consume_inbound_data, hrx]
      rw [ih { s with rx_buffer_decrypted := t } (Nat.le_of_succ_le_succ hlen)]
      simp

/-- Removing more bytes than the decrypted queue holds panics. -/
theorem consume_inbound_data_gt (n : Nat) :
    ∀ s : Noise, s.rx_buffer_decrypted.length < n →
      Noise.consume_inbound_data s n = none := by
  induction n with
  | zero => intro s hlen; simp at hlen
  | succ n ih =>
    intro s hlen
    match hrx : s.rx_buffer_decrypted with
    | [] => simp [Noise.consume_inbound_data, hrx]
    | a :: t =>
      rw [hrx] at hlen
      simp only [Noise.consume_inbound_data, hrx]
      exact ih { s with rx_buffer_decrypted := t } (Nat.lt_of_succ_lt_succ hlen)

/-- C10.  `Noise::consume_inbound_data(n)` has the unstated precondition
`n ≤ length of the decoded queue` and panics beyond it; under the
precondition it removes exactly the first `n` bytes, so
`decoded_inbound_data` afterwards is the previous queue with its first `n`
bytes dropped, and the cipher state and encrypted partial-frame buffer are
untouched. -/
theorem claim_C10 (s : Noise) (n : Nat) :
    (n ≤ s.rx_buffer_decrypted.length →
      Noise.consume_inbound_data s n =
        some { s with rx_buffer_decrypted := s.rx_buffer_decrypted.drop n }) ∧
    (s.rx_buffer_decrypted.length < n →
      Noise.consume_inbound_data s n = none) ∧
    (∀ s', Noise.consume_inbound_data s n = some s' →
      s'.decoded_inbound_data = s.decoded_inbound_data.drop n ∧
      s'.rx_buffer_encrypted = s.rx_buffer_encrypted ∧
      s'.readNonce = s.readNonce ∧ s'.writeNonce = s.writeNonce) := by
  refine ⟨consume_inbound_data_le n s, consume_inbound_data_gt n s, ?_⟩
  intro s' hs'
  rcases le_or_lt n s.rx_buffer_decrypted.length with hle | hgt
  · rw [consume_inbound_data_le n s hle] at hs'
    cases hs'
    simp [Noise.decoded_inbound_data]
  · rw [consume_inbound_data_gt n s hgt] at hs'
    cases hs'

/-- Witness for C10 on a concrete queue. -/
theorem claim_C10_witness :
    (2 ≤ (⟨0, 0, [8], [1, 2, 3]⟩ : Noise).rx_buffer_decrypted.length →
      Noise.consume_inbound_data ⟨0, 0, [8], [1, 2, 3]⟩ 2 =
        some { (⟨0, 0, [8], [1, 2, 3]⟩ : Noise) with
          rx_buffer_decrypted := ([1, 2, 3] : List Nat).drop 2 }) ∧
    ((⟨0, 0, [8], [1, 2, 3]⟩ : Noise).rx_buffer_decrypted.length < 2 →
      Noise.consume_inbound_data ⟨0, 0, [8], [1, 2, 3]⟩ 2 = none) ∧
    (∀ s', Noise.consume_inbound_data ⟨0, 0, [8], [1, 2, 3]⟩ 2 = some s' →
      s'.decoded_inbound_data =
        (⟨0, 0, [8], [1, 2, 3]⟩ : Noise).decoded_inbound_data.drop 2 ∧
      s'.rx_buffer_encrypted = (⟨0, 0, [8], [1, 2, 3]⟩ : Noise).rx_buffer_encrypted ∧
      s'.readNonce = (⟨0, 0, [8], [1, 2, 3]⟩ : Noise).readNonce ∧
      s'.writeNonce = (⟨0, 0, [8], [1, 2, 3]⟩ : Noise).writeNonce) :=
  claim_C10 ⟨0, 0, [8], [1, 2, 3]⟩ 2

/-- C4.  The claim that `inject_inbound_data` is total (always `Ok` or
`Err(CipherError)`) fails on the code: a fully assembled frame whose 2-byte
prefix declares a length below 16 drives
`rx_buffer_decrypted.resize(len_before + expected_len - 16, 0)` into a
`usize` underflow, i.e. a panic reachable from the public interface.  Here
the two bytes `[0, 0]` (a frame declaring length 0) panic on a fresh
session. -/
theorem claim_C4 :
    Noise.inject_inbound_data sampleOps sampleNoise [0, 0] = .panic := by
  rfl

/-- Above the high-water mark the loop stops before reading anything. -/
theorem injectLoop_at_threshold (ops : CryptoOps) (fuel : Nat) (s : Noise)
    (p : List Nat) (hthr : rxQueueThreshold ≤ s.rx_buffer_decrypted.length) :
    injectLoop ops (fuel + 1) s p = .ok s 0 := by
  simp [injectLoop, injectStepFn, hthr]

/-- If the loop returns having consumed fewer bytes than offered, the
decrypted-output queue has reached the high-water mark. -/
theorem injectLoop_partial_threshold (ops : CryptoOps) :
    ∀ (fuel : Nat) (s : Noise) (p : List Nat) (s' : Noise) (n : Nat),
      injectLoop ops fuel s p = .ok s' n → n < p.length →
      rxQueueThreshold ≤ s'.rx_buffer_decrypted.length := by
  intro fuel
  induction fuel with
  | zero => intro s p s' n hrun; simp [injectLoop] at hrun
  | succ fuel ih =>
    intro s p s' n hrun hlt
    simp only [injectLoop, injectStepFn] at hrun
    by_cases hthr : rxQueueThreshold ≤ s.rx_buffer_decrypted.length
    · rw [if_pos hthr] at hrun
      cases hrun
      exact hthr
    · rw [if_neg hthr] at hrun
      by_cases hsmall : s.rx_buffer_encrypted.length + p.length < 2
      · rw [if_pos hsmall] at hrun
        cases hrun
        omega
      · rw [if_neg hsmall] at hrun
        set need := 2 - s.rx_buffer_encrypted.length with hneed
        set rx1 := s.rx_buffer_encrypted ++ p.take need with hrx1
        set p1 := p.drop need with hp1
        set e2 := declaredLen rx1 with he2
        by_cases hpart : rx1.length + p1.length < e2 + 2
        · rw [if_pos hpart] at hrun
          cases hrun
          omega
        · rw [if_neg hpart] at hrun
          by_cases hun : e2 < 16
          · rw [if_pos hun] at hrun
            cases hrun
          · rw [if_neg hun] at hrun
            cases htr : ops.tread s.readNonce
                ((rx1 ++ p1.take (e2 + 2 - rx1.length)).drop 2) with
            | none => simp only [htr] at hrun; cases hrun
            | some plain =>
              simp only [htr] at hrun
              cases hrec : injectLoop ops fuel
                  { s with
                    readNonce := s.readNonce + 1
                    rx_buffer_encrypted := []
                    rx_buffer_decrypted :=
                      s.rx_buffer_decrypted ++ plain.take (e2 - 16) }
                  (p1.drop (e2 + 2 - rx1.length)) with
              | ok s2 m =>
                simp only [hrec] at hrun
                cases hrun
                have hrxl : rx1.length =
                    s.rx_buffer_encrypted.length + min need p.length := by
                  simp [hrx1]
                have hp1l : p1.length = p.length - need := by simp [hp1]
                have hp2l : (p1.drop (e2 + 2 - rx1.length)).length =
                    p1.length - (e2 + 2 - rx1.length) := by simp
                exact ih _ _ _ _ hrec (by omega)
              | cipherError => simp only [hrec] at hrun; cases hrun
              | panic => simp only [hrec] at hrun; cases hrun

/-- C6.  Backpressure of the transport cipher: with the decrypted-output
queue at or above the 256 KiB high-water mark, `inject_inbound_data`
consumes nothing (in particular strictly fewer bytes than any non-empty
payload offered) and leaves the session unchanged; conversely a call that
consumes fewer bytes than offered always ends with the queue at or above
the mark, so only draining via `consume_inbound_data` can restore full
consumption. -/
theorem claim_C6 (ops : CryptoOps) (s : Noise) (p : List Nat) :
    (rxQueueThreshold ≤ s.rx_buffer_decrypted.length →
      Noise.inject_inbound_data ops s p = .ok s 0) ∧
    (∀ s' n, Noise.inject_inbound_data ops s p = .ok s' n → n < p.length →
      rxQueueThreshold ≤ s'.rx_buffer_decrypted.length) := by
  constructor
  · intro hthr
    exact injectLoop_at_threshold ops _ s p hthr
  · intro s' n hrun hlt
    exact injectLoop_partial_threshold ops _ s p s' n hrun hlt

/-- A transport session whose decrypted queue sits exactly at the
high-water mark, used by the C6 witness. -/
def bigQueueNoise : Noise := ⟨0, 0, [], List.replicate rxQueueThreshold 0⟩

/-- Witness for C6: at the threshold, a 1-byte payload is not consumed at
all, and the partial consumption indeed certifies the queue is full. -/
theorem claim_C6_witness :
    rxQueueThreshold ≤ bigQueueNoise.rx_buffer_decrypted.length ∧
    Noise.inject_inbound_data sampleOps bigQueueNoise [1] = .ok bigQueueNoise 0 ∧
    rxQueueThreshold ≤ bigQueueNoise.rx_buffer_decrypted.length := by
  have hthr : rxQueueThreshold ≤ bigQueueNoise.rx_buffer_decrypted.length := by
    simp [bigQueueNoise]
  have h1 := (claim_C6 sampleOps bigQueueNoise [1]).1 hthr
  exact ⟨hthr, h1,
    (claim_C6 sampleOps bigQueueNoise [1]).2 bigQueueNoise 0 h1 (by simp)⟩

/-- Number of handshake messages the party still has to receive once `c`
messages of the pattern have been exchanged (the initiator only receives
message 2, the responder receives messages 1 and 3). -/
def inboundRemain (isInit : Bool) (c : Nat) : Nat :=
  if isInit then (if c ≤ 1 then 1 else 0)
  else (if c = 0 then 2 else if c ≤ 2 then 1 else 0)

/-- Core invariant of reachable handshake sessions: the
`rx_messages_remain` bookkeeping agrees with the engine's progress and a
still-expected payload arrives on the last expected inbound message. -/
def InvCore (h : HandshakeInProgress) : Prop :=
  h.rx_messages_remain = inboundRemain h.isInitiator h.msgCount ∧
  (∀ n, h.rx_payload = .NthMessage n → n + 1 = h.rx_messages_remain)

/-- Invariant of reachable handshake sessions: the core bookkeeping
invariant, and the fact that a session already satisfying the completion
conditions is never left in progress. -/
def Inv (h : HandshakeInProgress) : Prop :=
  InvCore h ∧
  ¬(h.tx_buffer_encrypted = [] ∧ engineFinished h.msgCount = true)

/-- Producing one's own handshake message never changes how many messages
are still expected inbound. -/
theorem writePos_inboundRemain (b : Bool) (c : Nat) (h : writePos b c = true) :
    inboundRemain b (c + 1) = inboundRemain b c := by
  simp [writePos, sentByInitiator] at h
  obtain ⟨hc, hs⟩ := h
  interval_cases c <;> cases b <;> simp_all [inboundRemain]

/-- Consuming an inbound handshake message decrements the number of
messages still expected inbound, which is positive beforehand. -/
theorem readPos_inboundRemain (b : Bool) (c : Nat) (h : readPos b c = true) :
    inboundRemain b (c + 1) + 1 = inboundRemain b c := by
  simp [readPos, sentByInitiator] at h
  obtain ⟨hc, hs⟩ := h
  interval_cases c <;> cases b <;> simp_all [inboundRemain]

/-- Once the engine reports the exchange finished, no inbound handshake
message remains. -/
theorem finished_inboundRemain (b : Bool) (c : Nat)
    (h : engineFinished c = true) : inboundRemain b c = 0 := by
  simp [engineFinished] at h
  cases b <;> simp only [inboundRemain] <;> split_ifs <;> omega

/-- A successful engine read certifies the engine was in read position. -/
theorem engineRead_readPos {ops : CryptoOps} {b : Bool} {c : Nat}
    {ct pl : List Nat} (h : engineRead ops b c ct = some pl) :
    readPos b c = true := by
  by_cases hp : readPos b c = true
  · exact hp
  · simp [engineRead, hp] at h

/-- `try_finish` keeps the session unchanged while it stays in progress,
and it does so exactly when the completion conditions are not both met. -/
theorem try_finish_inprogress (h : HandshakeInProgress)
    (h' : HandshakeInProgress)
    (heq : try_finish h = some (.InProgress h')) :
    h' = h ∧ ¬(h.tx_buffer_encrypted = [] ∧ engineFinished h.msgCount = true) := by
  unfold try_finish at heq
  by_cases htx : h.tx_buffer_encrypted.isEmpty = false
  · rw [if_pos htx] at heq
    cases heq
    constructor
    · rfl
    · rintro ⟨he, -⟩
      rw [he] at htx
      simp at htx
  · rw [if_neg htx] at heq
    by_cases hfin : engineFinished h.msgCount = false
    · rw [if_pos hfin] at heq
      cases heq
      exact ⟨rfl, by rintro ⟨-, hf⟩; rw [hf] at hfin; cases hfin⟩
    · rw [if_neg hfin] at heq
      cases hrx : h.rx_payload with
      | Received pid => rw [hrx] at heq; cases heq
      | NthMessage n => rw [hrx] at heq; cases heq

/-- `try_finish` reports success exactly from a drained, finished session
whose remote payload has been received. -/
theorem try_finish_success (h : HandshakeInProgress) (c : Noise)
    (pid : List Nat) (heq : try_finish h = some (.Success c pid)) :
    h.tx_buffer_encrypted = [] ∧ engineFinished h.msgCount = true ∧
    h.rx_payload = .Received pid ∧ c = noiseFromHandshake h := by
  unfold try_finish at heq
  by_cases htx : h.tx_buffer_encrypted.isEmpty = false
  · rw [if_pos htx] at heq; cases heq
  · rw [if_neg htx] at heq
    by_cases hfin : engineFinished h.msgCount = false
    · rw [if_pos hfin] at heq; cases heq
    · rw [if_neg hfin] at heq
      cases hrx : h.rx_payload with
      | Received pid2 =>
        rw [hrx] at heq
        cases heq
        refine ⟨?_, ?_, rfl, rfl⟩
        · cases hl : h.tx_buffer_encrypted with
          | nil => rfl
          | cons a t => rw [hl] at htx; simp at htx
        · cases hf : engineFinished h.msgCount with
          | false => rw [hf] at hfin; simp at hfin
          | true => rfl
      | NthMessage n => rw [hrx] at heq; cases heq

/-- From a drained and finished session with the payload received,
`try_finish` yields success. -/
theorem try_finish_yields_success (h : HandshakeInProgress) (pid : List Nat)
    (htx : h.tx_buffer_encrypted = []) (hfin : engineFinished h.msgCount = true)
    (hrx : h.rx_payload = .Received pid) :
    try_finish h = some (.Success (noiseFromHandshake h) pid) := by
  unfold try_finish
  rw [htx, hfin, hrx]
  simp

/-- Shape of `update_message_write`: either nothing happens (not this
party's turn) or one engine message is produced, leaving role, inbound
bookkeeping and inbound buffer untouched. -/
theorem update_message_write_shape (ops : CryptoOps)
    (h h3 : HandshakeInProgress)
    (hup : update_message_write ops h = some h3) :
    h3 = h ∨ (writePos h.isInitiator h.msgCount = true ∧
      h3.isInitiator = h.isInitiator ∧ h3.msgCount = h.msgCount + 1 ∧
      h3.rx_payload = h.rx_payload ∧
      h3.rx_messages_remain = h.rx_messages_remain ∧
      h3.rx_buffer_encrypted = h.rx_buffer_encrypted) := by
  unfold update_message_write at hup
  by_cases hw : writePos h.isInitiator h.msgCount = true
  · rw [if_pos hw] at hup
    rcases htx : h.tx_payload with _ | ⟨k, pl⟩
    · simp only [htx] at hup
      split at hup
      · cases hup; right; exact ⟨hw, rfl, rfl, rfl, rfl, rfl⟩
      · cases hup
    · cases k with
      | zero =>
        simp only [htx] at hup
        split at hup
        · cases hup; right; exact ⟨hw, rfl, rfl, rfl, rfl, rfl⟩
        · cases hup
      | succ k2 =>
        simp only [htx] at hup
        split at hup
        · cases hup; right; exact ⟨hw, rfl, rfl, rfl, rfl, rfl⟩
        · cases hup
  · rw [if_neg hw] at hup
    cases hup
    left; rfl

/-- Producing the next outbound message preserves the core invariant. -/
theorem update_message_write_invCore (ops : CryptoOps)
    (h h3 : HandshakeInProgress) (hcore : InvCore h)
    (hup : update_message_write ops h = some h3) : InvCore h3 := by
  rcases update_message_write_shape ops h h3 hup with rfl | ⟨hw, hi, hm, hrx, hrem, -⟩
  · exact hcore
  · obtain ⟨h1c, h2c⟩ := hcore
    constructor
    · rw [hrem, hi, hm, writePos_inboundRemain _ _ hw]
      exact h1c
    · intro n hn
      rw [hrem]
      exact h2c n (by rw [← hrx]; exact hn)

/-- The tail of a processed handshake message (possible outbound write, then
completion attempt) turns a state satisfying the core invariant only into
in-progress states satisfying the full invariant. -/
theorem finishMessage_inv (ops : CryptoOps) (h2 : HandshakeInProgress)
    (total : Nat) (st : NoiseHandshake) (n : Nat) (hcore : InvCore h2)
    (hrun : finishMessage ops h2 total = .ok (st, n)) :
    ∀ h', st = .InProgress h' → Inv h' := by
  intro h' hst
  unfold finishMessage at hrun
  cases hup : update_message_write ops h2 with
  | none => simp only [hup] at hrun; cases hrun
  | some h3 =>
    simp only [hup] at hrun
    cases htf : try_finish h3 with
    | none => simp only [htf] at hrun; cases hrun
    | some st2 =>
      simp only [htf] at hrun
      cases hrun
      subst hst
      obtain ⟨heq, hnd⟩ := try_finish_inprogress h3 h' htf
      subst heq
      exact ⟨update_message_write_invCore ops h2 h' hcore hup, hnd⟩

/-- The invariant only involves the role, message counters and payload
states, so changing the inbound buffer preserves it. -/
theorem Inv_rx_buffer (h : HandshakeInProgress) (x : List Nat)
    (hInv : Inv h) : Inv { h with rx_buffer_encrypted := x } := by
  obtain ⟨⟨a, b⟩, c⟩ := hInv
  exact ⟨⟨a, b⟩, c⟩

/-- `inject_data` preserves the reachability invariant on every in-progress
state it returns. -/
theorem injectData_inv (ops : CryptoOps) (h : HandshakeInProgress)
    (p : List Nat) (st : NoiseHandshake) (n : Nat) (hInv : Inv h)
    (hrun : injectData ops h p = .ok (st, n)) :
    ∀ h', st = .InProgress h' → Inv h' := by
  intro h' hst
  unfold injectData at hrun
  by_cases hrem : h.rx_messages_remain = 0
  · rw [if_pos hrem] at hrun
    cases hrun
    cases hst
    exact hInv
  · rw [if_neg hrem] at hrun
    by_cases hsmall : h.rx_buffer_encrypted.length + p.length < 2
    · rw [if_pos hsmall] at hrun
      cases hrun
      cases hst
      exact Inv_rx_buffer h _ hInv
    · rw [if_neg hsmall] at hrun
      set need := 2 - h.rx_buffer_encrypted.length with hneed
      set rx1 := h.rx_buffer_encrypted ++ p.take need with hrx1
      set p1 := p.drop need with hp1
      set e2 := declaredLen rx1 with he2
      set toCopy := min (e2 + 2 - rx1.length) p1.length with htoCopy
      set rx2 := rx1 ++ p1.take toCopy with hrx2
      by_cases hpart : rx2.length < e2 + 2
      · rw [if_pos hpart] at hrun
        cases hrun
        cases hst
        exact Inv_rx_buffer h _ hInv
      · rw [if_neg hpart] at hrun
        cases hre : engineRead ops h.isInitiator h.msgCount (rx2.drop 2) with
        | none => simp only [hre] at hrun; cases hrun
        | some plain =>
          simp only [hre] at hrun
          unfold processMessage at hrun
          have hrp : readPos h.isInitiator h.msgCount = true :=
            engineRead_readPos hre
          have hdec := readPos_inboundRemain h.isInitiator h.msgCount hrp
          obtain ⟨hc1, hc2⟩ := hInv.1
          have hcore2 : ∀ rp : RxPayload,
              (∀ m, rp = .NthMessage m → m + 1 = h.rx_messages_remain - 1) →
              InvCore
                { h with
                  msgCount := h.msgCount + 1
                  rx_buffer_encrypted := []
                  rx_messages_remain := h.rx_messages_remain - 1
                  rx_payload := rp } := by
            intro rp hrp2
            exact ⟨by simp; omega, fun m hm => hrp2 m hm⟩
          cases hrx : h.rx_payload with
          | NthMessage k =>
            cases k with
            | zero =>
              simp only [hrx] at hrun
              cases hdecode : decodeWithFallback ops (plain.take e2) with
              | none => simp only [hdecode] at hrun; cases hrun
              | some hp =>
                simp only [hdecode] at hrun
                cases hkey : ops.decodeKey hp.identity_key with
                | none => simp only [hkey] at hrun; cases hrun
                | some key =>
                  simp only [hkey] at hrun
                  cases hrs : getRemoteStatic ops h.isInitiator (h.msgCount + 1) with
                  | none => simp only [hrs] at hrun; cases hrun
                  | some rs =>
                    simp only [hrs] at hrun
                    by_cases hver : ops.verify key (noiseStaticKeyDomain ++ rs)
                        hp.identity_sig = true
                    · rw [if_pos hver] at hrun
                      refine finishMessage_inv ops _ _ st n ?_ hrun h' hst
                      exact hcore2 _ (fun m hm => by cases hm)
                    · rw [if_neg hver] at hrun
                      cases hrun
            | succ m =>
              simp only [hrx] at hrun
              by_cases hemp : (plain.take e2).isEmpty = true
              · rw [if_pos hemp] at hrun
                refine finishMessage_inv ops _ _ st n ?_ hrun h' hst
                apply hcore2
                intro m2 hm2
                cases hm2
                have hk := hc2 _ hrx
                omega
              · rw [if_neg hemp] at hrun
                cases hrun
          | Received pid =>
            simp only [hrx] at hrun
            by_cases hemp : (plain.take e2).isEmpty = true
            · rw [if_pos hemp] at hrun
              refine finishMessage_inv ops _ _ st n ?_ hrun h' hst
              exact hcore2 _ (fun m hm => by cases hm)
            · rw [if_neg hemp] at hrun
              cases hrun

/-- `write_out` preserves the reachability invariant on every in-progress
state it returns. -/
theorem write_out_inv (h : HandshakeInProgress) (d : Nat)
    (st : NoiseHandshake) (n : Nat) (hInv : Inv h)
    (hrun : write_out h d = some (st, n)) :
    ∀ h', st = .InProgress h' → Inv h' := by
  intro h' hst
  simp only [write_out, Option.map_eq_some'] at hrun
  obtain ⟨st2, htf, heq⟩ := hrun
  cases heq
  subst hst
  obtain ⟨heq2, hnd⟩ := try_finish_inprogress _ h' htf
  subst heq2
  exact ⟨⟨hInv.1.1, hInv.1.2⟩, hnd⟩

/-- Freshly created sessions satisfy the reachability invariant. -/
theorem new_inv (ops : CryptoOps) (key : NoiseKey) (b : Bool)
    (h : HandshakeInProgress) (hnew : HandshakeInProgress.new ops key b = some h) :
    Inv h := by
  cases b
  · simp [HandshakeInProgress.new, update_message_write, writePos,
      sentByInitiator] at hnew
    subst hnew
    refine ⟨⟨by simp [inboundRemain], ?_⟩, ?_⟩
    · intro n hn
      cases hn
      rfl
    · rintro ⟨-, hf⟩
      simp [engineFinished] at hf
  · simp [HandshakeInProgress.new, update_message_write, writePos,
      sentByInitiator] at hnew
    obtain ⟨-, rfl⟩ := hnew
    refine ⟨⟨by simp [inboundRemain], ?_⟩, ?_⟩
    · intro n hn
      cases hn
      rfl
    · rintro ⟨-, hf⟩
      simp [engineFinished] at hf

/-- Under the invariant the completion attempt never hits the
`unreachable!` for a missing remote payload. -/
theorem try_finish_total (h : HandshakeInProgress) (hInv : Inv h) :
    try_finish h ≠ none := by
  intro hn
  unfold try_finish at hn
  by_cases htx : h.tx_buffer_encrypted.isEmpty = false
  · rw [if_pos htx] at hn; cases hn
  · rw [if_neg htx] at hn
    by_cases hfin : engineFinished h.msgCount = false
    · rw [if_pos hfin] at hn; cases hn
    · rw [if_neg hfin] at hn
      cases hrx : h.rx_payload with
      | Received pid => rw [hrx] at hn; cases hn
      | NthMessage n =>
        have hfin2 : engineFinished h.msgCount = true := by
          cases hf : engineFinished h.msgCount with
          | false => rw [hf] at hfin; simp at hfin
          | true => rfl
        have h0 := finished_inboundRemain h.isInitiator h.msgCount hfin2
        have := hInv.1.2 n hrx
        rw [hInv.1.1, h0] at this
        omega

/-- C2.  Completion discipline of the handshake: freshly created sessions
satisfy the reachability invariant and `inject_data`/`write_out` preserve
it; under the invariant the completion attempt run after every such call
never hits the `unreachable!` for a missing remote payload; the state it
returns is `Success` exactly when the outbound byte queue is empty and the
engine reports the exchange finished (in particular, while unsent bytes
are still queued it stays `InProgress`, unchanged); and every `Success`
carries the previously recorded, verified `PeerId`. -/
theorem claim_C2 :
    (∀ (ops : CryptoOps) (key : NoiseKey) (b : Bool) (h : HandshakeInProgress),
      HandshakeInProgress.new ops key b = some h → Inv h) ∧
    (∀ (ops : CryptoOps) (h : HandshakeInProgress) (p : List Nat)
        (st : NoiseHandshake) (n : Nat), Inv h →
      injectData ops h p = .ok (st, n) → ∀ h', st = .InProgress h' → Inv h') ∧
    (∀ (h : HandshakeInProgress) (d : Nat) (st : NoiseHandshake) (n : Nat),
      Inv h → write_out h d = some (st, n) →
      ∀ h', st = .InProgress h' → Inv h') ∧
    (∀ h : HandshakeInProgress, Inv h → try_finish h ≠ none) ∧
    (∀ (h : HandshakeInProgress) (st : NoiseHandshake), try_finish h = some st →
      ((∃ c pid, st = .Success c pid) ↔
        (h.tx_buffer_encrypted = [] ∧ engineFinished h.msgCount = true))) ∧
    (∀ (h : HandshakeInProgress) (c : Noise) (pid : List Nat),
      try_finish h = some (.Success c pid) → h.rx_payload = .Received pid) ∧
    (∀ h : HandshakeInProgress, h.tx_buffer_encrypted ≠ [] →
      try_finish h = some (.InProgress h)) := by
  refine ⟨new_inv, injectData_inv, write_out_inv, try_finish_total, ?_, ?_, ?_⟩
  · intro h st htf
    constructor
    · rintro ⟨c, pid, rfl⟩
      have hs := try_finish_success h c pid htf
      exact ⟨hs.1, hs.2.1⟩
    · rintro ⟨htx, hfin⟩
      simp only [try_finish, htx, hfin] at htf
      cases hrx : h.rx_payload with
      | Received pid =>
        rw [hrx] at htf
        simp at htf
        exact ⟨noiseFromHandshake h, pid, htf.symm⟩
      | NthMessage k =>
        rw [hrx] at htf
        simp at htf
  · intro h c pid htf
    exact (try_finish_success h c pid htf).2.2.1
  · intro h htx
    cases hl : h.tx_buffer_encrypted with
    | nil => exact absurd hl htx
    | cons a t => simp [try_finish, hl]

/-- Initiator session right after creation, used by several witnesses. -/
def sampleInitiator : HandshakeInProgress :=
  ⟨true, 1, some (0, [5, 6]), .NthMessage 0, 1, [], [0, 1, 100]⟩

/-- Completed initiator session with its outbound queue drained, used by
several witnesses. -/
def sampleDone : HandshakeInProgress :=
  ⟨true, 3, none, .Received [99, 1], 0, [], []⟩

/-- Witness for C2 at concrete sessions: invariance of the fresh initiator
state, absence of the completion panic there, the success criterion on a
drained finished session, and stability while bytes are queued. -/
theorem claim_C2_witness :
    Inv sampleInitiator ∧
    try_finish sampleInitiator ≠ none ∧
    ((∃ c pid, (NoiseHandshake.Success (noiseFromHandshake sampleDone) [99, 1]) =
        .Success c pid) ↔
      (sampleDone.tx_buffer_encrypted = [] ∧
        engineFinished sampleDone.msgCount = true)) ∧
    sampleDone.rx_payload = .Received [99, 1] ∧
    try_finish sampleInitiator = some (.InProgress sampleInitiator) := by
  have hInv : Inv sampleInitiator :=
    claim_C2.1 sampleOps sampleKey true sampleInitiator rfl
  refine ⟨hInv, claim_C2.2.2.2.1 sampleInitiator hInv, ?_, ?_, ?_⟩
  · exact claim_C2.2.2.2.2.1 sampleDone _ rfl
  · exact claim_C2.2.2.2.2.2.1 sampleDone _ _ rfl
  · exact claim_C2.2.2.2.2.2.2 sampleInitiator (by decide)

/-- A fully assembled wire frame: 2-byte big-endian length prefix followed
by the frame body. -/
def mkFrame (body : List Nat) : List Nat := lenBytesOf body.length ++ body

/-- The length prefix decodes back to the encoded length. -/
theorem declaredLen_lenBytesOf (n : Nat) : declaredLen (lenBytesOf n) = n := by
  simp [declaredLen, lenBytesOf]
  omega

/-- Feeding one complete frame to a session with an empty inbound buffer
reduces `inject_data` to the engine read of the frame body followed by the
message-processing tail. -/
theorem injectData_mkFrame (ops : CryptoOps) (h : HandshakeInProgress)
    (body : List Nat) (hrx0 : h.rx_buffer_encrypted = [])
    (hrem : h.rx_messages_remain ≠ 0) :
    injectData ops h (mkFrame body) =
      match engineRead ops h.isInitiator h.msgCount body with
      | none => .err .Cipher
      | some plain =>
        processMessage ops h plain body.length (2 + body.length) := by
  have hdm : body.length / 256 * 256 + body.length % 256 = body.length := by
    omega
  simp [injectData, hrem, hrx0, mkFrame, lenBytesOf, declaredLen, hdm]

/-- The message-write/completion tail can only succeed or panic, never
return a typed handshake error. -/
theorem finishMessage_no_err (ops : CryptoOps) (h2 : HandshakeInProgress)
    (total : Nat) (e : HandshakeError) :
    finishMessage ops h2 total ≠ .err e := by
  unfold finishMessage
  cases hup : update_message_write ops h2 with
  | none => simp [hup]
  | some h3 =>
    cases htf : try_finish h3 with
    | none => simp [hup, htf]
    | some st => simp [hup, htf]

/-- C5.  If, on the handshake message expected to carry the identity
payload, the decoded signature fails to verify against the embedded
identity key and the engine's observed remote static key (over the
domain-separated message `"noise-libp2p-static-key:" ++ static`), then
`inject_data` returns `SignatureVerificationFailed` and nothing else: the
error value carries no session and no `PeerId`, the session is consumed,
and in particular no state in which the payload counts as received (let
alone a `Success`) is ever produced from this call. -/
theorem claim_C5 (ops : CryptoOps) (h : HandshakeInProgress)
    (body plain : List Nat) (hp : HandshakePayload) (key rs : List Nat)
    (hrx0 : h.rx_buffer_encrypted = [])
    (hrem : h.rx_messages_remain ≠ 0)
    (hexp : h.rx_payload = .NthMessage 0)
    (hread : engineRead ops h.isInitiator h.msgCount body = some plain)
    (hplain : plain.length ≤ body.length)
    (hdec : decodeWithFallback ops plain = some hp)
    (hkey : ops.decodeKey hp.identity_key = some key)
    (hrs : getRemoteStatic ops h.isInitiator (h.msgCount + 1) = some rs)
    (hver : ops.verify key (noiseStaticKeyDomain ++ rs) hp.identity_sig = false) :
    injectData ops h (mkFrame body) = .err .SignatureVerificationFailed := by
  rw [injectData_mkFrame ops h body hrx0 hrem]
  simp only [hread]
  unfold processMessage
  simp only [List.take_of_length_le hplain, hexp, hdec, hkey]
  simp only [hrs, hver]
  simp

/-- Collaborators whose signature verification always rejects, used by the
C5 witness. -/
def sampleOpsBadSig : CryptoOps :=
  { sampleOps with verify := fun _ _ _ => false }

/-- Witness for C5: a concrete frame whose embedded signature fails to
verify produces exactly `SignatureVerificationFailed`. -/
theorem claim_C5_witness :
    sampleOpsBadSig.verify [1]
      (noiseStaticKeyDomain ++ [42]) [2] = false ∧
    injectData sampleOpsBadSig sampleInitiator (mkFrame [9]) =
      .err .SignatureVerificationFailed :=
  ⟨rfl,
    claim_C5 sampleOpsBadSig sampleInitiator [9] [7] ⟨[1], [2]⟩ [1] [42]
      rfl (by decide) rfl rfl (by decide) rfl rfl rfl rfl⟩

/-- C8.  The interoperability fallback of the payload decode: the standard
protobuf decode is attempted first; only when it fails and at least two
bytes are present is the decode retried after skipping the first two
bytes; `PayloadDecodeError` is produced exactly when the standard attempt
fails and the fallback also fails or cannot be made.  The last conjunct
ties this to `inject_data` on the message expected to carry the payload. -/
theorem claim_C8 :
    (∀ (ops : CryptoOps) (bytes : List Nat) (p : HandshakePayload),
      ops.decodePayload bytes = some p →
      decodeWithFallback ops bytes = some p) ∧
    (∀ (ops : CryptoOps) (bytes : List Nat),
      ops.decodePayload bytes = none → 2 ≤ bytes.length →
      decodeWithFallback ops bytes = ops.decodePayload (bytes.drop 2)) ∧
    (∀ (ops : CryptoOps) (bytes : List Nat),
      decodeWithFallback ops bytes = none ↔
        (ops.decodePayload bytes = none ∧
          (bytes.length < 2 ∨ ops.decodePayload (bytes.drop 2) = none))) ∧
    (∀ (ops : CryptoOps) (h : HandshakeInProgress) (body plain : List Nat),
      h.rx_buffer_encrypted = [] → h.rx_messages_remain ≠ 0 →
      h.rx_payload = .NthMessage 0 →
      engineRead ops h.isInitiator h.msgCount body = some plain →
      plain.length ≤ body.length →
      (injectData ops h (mkFrame body) = .err .PayloadDecode ↔
        decodeWithFallback ops plain = none)) := by
  refine ⟨?_, ?_, ?_, ?_⟩
  · intro ops bytes p hd
    simp [decodeWithFallback, hd]
  · intro ops bytes hd hlen
    simp [decodeWithFallback, hd, hlen]
  · intro ops bytes
    unfold decodeWithFallback
    cases hd : ops.decodePayload bytes with
    | some p => simp
    | none =>
      by_cases hlen : 2 ≤ bytes.length
      · rw [if_pos hlen]
        constructor
        · intro hd2
          exact ⟨rfl, Or.inr hd2⟩
        · rintro ⟨-, hd2 | hd2⟩
          · omega
          · exact hd2
      · rw [if_neg hlen]
        constructor
        · intro _
          exact ⟨rfl, Or.inl (by omega)⟩
        · intro _
          rfl
  · intro ops h body plain hrx0 hrem hexp hread hplain
    rw [injectData_mkFrame ops h body hrx0 hrem]
    simp only [hread]
    unfold processMessage
    simp only [List.take_of_length_le hplain, hexp]
    cases hfb : decodeWithFallback ops plain with
    | none => simp
    | some hp =>
      simp only [hfb]
      constructor
      · intro hcontra
        exfalso
        cases hkey : ops.decodeKey hp.identity_key with
        | none => simp only [hkey] at hcontra; cases hcontra
        | some key =>
          simp only [hkey] at hcontra
          cases hrs : getRemoteStatic ops h.isInitiator (h.msgCount + 1) with
          | none => simp only [hrs] at hcontra; cases hcontra
          | some rs =>
            simp only [hrs] at hcontra
            by_cases hver : ops.verify key (noiseStaticKeyDomain ++ rs)
                hp.identity_sig = true
            · rw [if_pos hver] at hcontra
              exact finishMessage_no_err ops _ _ _ hcontra
            · rw [if_neg hver] at hcontra
              cases hcontra
      · intro hcontra
        cases hcontra

/-- Witness for C8 at a concrete session and frames: the fallback is tried
on a payload whose standard decode fails, and the `inject_data`-level
equivalence holds on the sample session. -/
theorem claim_C8_witness :
    (sampleOps.decodePayload [7] = some ⟨[1], [2]⟩ →
      decodeWithFallback sampleOps [7] = some ⟨[1], [2]⟩) ∧
    (sampleOps.decodePayload [0, 0, 7] = none → 2 ≤ ([0, 0, 7] : List Nat).length →
      decodeWithFallback sampleOps [0, 0, 7] = sampleOps.decodePayload [7]) ∧
    (injectData sampleOps sampleInitiator (mkFrame [9]) = .err .PayloadDecode ↔
      decodeWithFallback sampleOps [7] = none) := by
  refine ⟨claim_C8.1 sampleOps [7] ⟨[1], [2]⟩, ?_, ?_⟩
  · intro hd hlen
    have := claim_C8.2.1 sampleOps [0, 0, 7] hd hlen
    simpa using this
  · exact claim_C8.2.2.2 sampleOps sampleInitiator [9] [7]
      rfl (by decide) rfl rfl (by decide)

/-- A plaintext chunk of at least 65520 bytes offered to a destination of
at least 65538 bytes drives the encrypt loop into a sealed message of more
than 65535 bytes, which can be neither written by the engine nor encoded in
the 2-byte length prefix: the source's `unwrap`s panic. -/
theorem encryptInner_overflow (ops : CryptoOps) (fuel nonce : Nat)
    (payload : List Nat) (destLen : Nat)
    (h2 : 65520 ≤ payload.length) (h3 : 65538 ≤ destLen) :
    encryptInner ops (fuel + 1) nonce payload destLen = none := by
  unfold encryptInner
  rw [if_pos (by omega : 19 ≤ destLen)]
  rw [if_neg (by omega : ¬(min payload.length (min 65536 (destLen - 18)) = 0))]
  rw [if_neg
    (by omega : ¬(min payload.length (min 65536 (destLen - 18)) + 16 ≤ 65535))]

/-- C3.  The claim that `Noise::encrypt` totals exact counts of complete
frames for every plaintext input and destination fails on the code: the
per-frame plaintext cap is 65536 bytes, but a frame of 65520 or more
plaintext bytes seals to more than 65535 bytes, which overflows the u16
length prefix (and is rejected by the engine), so the `unwrap`s panic.
Concretely, one 65520-byte chunk with a 65538-byte destination panics. -/
theorem claim_C3 :
    Noise.encrypt sampleOps sampleNoise [List.replicate 65520 0] 65538 =
      none := by
  unfold Noise.encrypt
  rw [if_neg (by decide :
    ¬(([List.replicate (65520 : Nat) (0 : Nat)].isEmpty : Bool) = true))]
  have hlen : ([List.replicate (65520 : Nat) (0 : Nat)].flatten).length = 65520 := by
    rw [show [List.replicate (65520 : Nat) (0 : Nat)].flatten
        = List.replicate 65520 0 ++ List.flatten [] from rfl]
    simp only [List.flatten_nil, List.append_nil, List.length_replicate]
  rw [encryptInner_overflow sampleOps _ _ _ _ (by omega) (by omega)]

/-- The loop iteration only consults its continuation on an emptied inbound
buffer and a payload at least one whole minimal frame shorter. -/
theorem injectStepFn_congr (ops : CryptoOps)
    (rec₁ rec₂ : Noise → List Nat → TRes) (s : Noise) (p : List Nat)
    (h : ∀ s' p', s'.rx_buffer_encrypted = [] →
      p'.length + 18 ≤ s.rx_buffer_encrypted.length + p.length →
      rec₁ s' p' = rec₂ s' p') :
    injectStepFn ops rec₁ s p = injectStepFn ops rec₂ s p := by
  unfold injectStepFn
  by_cases hthr : rxQueueThreshold ≤ s.rx_buffer_decrypted.length
  · simp only [if_pos hthr]
  · simp only [if_neg hthr]
    by_cases hsmall : s.rx_buffer_encrypted.length + p.length < 2
    · simp only [if_pos hsmall]
    · simp only [if_neg hsmall]
      set need := 2 - s.rx_buffer_encrypted.length with hneed
      set rx1 := s.rx_buffer_encrypted ++ p.take need with hrx1
      set p1 := p.drop need with hp1
      set e2 := declaredLen rx1 with he2
      by_cases hpart : rx1.length + p1.length < e2 + 2
      · simp only [if_pos hpart]
      · simp only [if_neg hpart]
        by_cases hun : e2 < 16
        · simp only [if_pos hun]
        · simp only [if_neg hun]
          cases htr : ops.tread s.readNonce
              ((rx1 ++ p1.take (e2 + 2 - rx1.length)).drop 2) with
          | none => simp only [htr]
          | some plain =>
            simp only [htr]
            have hrxl : rx1.length =
                s.rx_buffer_encrypted.length + min need p.length := by
              simp [hrx1]
            have hp1l : p1.length = p.length - need := by simp [hp1]
            have hp2l : (p1.drop (e2 + 2 - rx1.length)).length =
                p1.length - (e2 + 2 - rx1.length) := by simp
            rw [h _ (p1.drop (e2 + 2 - rx1.length)) rfl (by omega)]

/-- Extra fuel beyond the measure of the arguments does not change the
loop's behaviour. -/
theorem injectLoop_mono (ops : CryptoOps) :
    ∀ (fuel : Nat) (s : Noise) (p : List Nat),
      s.rx_buffer_encrypted.length + p.length + 1 ≤ fuel →
      injectLoop ops (fuel + 1) s p = injectLoop ops fuel s p := by
  intro fuel
  induction fuel with
  | zero => intro s p h; exact absurd h (by omega)
  | succ fuel ih =>
    intro s p h
    show injectStepFn ops (injectLoop ops (fuel + 1)) s p =
      injectStepFn ops (injectLoop ops fuel) s p
    apply injectStepFn_congr
    intro s' p' hrx hle
    exact ih s' p' (by simp [hrx]; omega)

/-- Iterated form of `injectLoop_mono`. -/
theorem injectLoop_add (ops : CryptoOps) :
    ∀ (k fuel : Nat) (s : Noise) (p : List Nat),
      s.rx_buffer_encrypted.length + p.length + 1 ≤ fuel →
      injectLoop ops (fuel + k) s p = injectLoop ops fuel s p := by
  intro k
  induction k with
  | zero => intro fuel s p _; rfl
  | succ k ih =>
    intro fuel s p h
    rw [show fuel + (k + 1) = (fuel + k) + 1 from rfl]
    rw [injectLoop_mono ops (fuel + k) s p (by omega)]
    exact ih fuel s p h

/-- Any sufficient fuel computes `inject_inbound_data`. -/
theorem injectLoop_eq_inject (ops : CryptoOps) (f : Nat) (s : Noise)
    (p : List Nat)
    (hf : s.rx_buffer_encrypted.length + p.length + 1 ≤ f) :
    injectLoop ops f s p = Noise.inject_inbound_data ops s p := by
  unfold Noise.inject_inbound_data
  have h1 : f = (s.rx_buffer_encrypted.length + p.length + 1) +
      (f - (s.rx_buffer_encrypted.length + p.length + 1)) := by omega
  rw [h1, injectLoop_add ops _ _ s p (le_refl _)]

/-- Fuel-free unfolding equation of `inject_inbound_data`: one iteration of
the loop body around the function itself. -/
theorem inject_inbound_step (ops : CryptoOps) (s : Noise) (p : List Nat) :
    Noise.inject_inbound_data ops s p =
      injectStepFn ops (Noise.inject_inbound_data ops) s p := by
  conv_lhs => rw [Noise.inject_inbound_data]
  show injectStepFn ops
    (injectLoop ops (s.rx_buffer_encrypted.length + p.length)) s p = _
  apply injectStepFn_congr
  intro s' p' hrx hle
  exact injectLoop_eq_inject ops _ s' p' (by simp [hrx]; omega)

/-- The loop never consumes more bytes than offered. -/
theorem injectLoop_consumed_le (ops : CryptoOps) :
    ∀ (fuel : Nat) (s : Noise) (p : List Nat) (s' : Noise) (n : Nat),
      injectLoop ops fuel s p = .ok s' n → n ≤ p.length := by
  intro fuel
  induction fuel with
  | zero => intro s p s' n hrun; simp [injectLoop] at hrun
  | succ fuel ih =>
    intro s p s' n hrun
    simp only [injectLoop, injectStepFn] at hrun
    by_cases hthr : rxQueueThreshold ≤ s.rx_buffer_decrypted.length
    · rw [if_pos hthr] at hrun
      cases hrun
      omega
    · rw [if_neg hthr] at hrun
      by_cases hsmall : s.rx_buffer_encrypted.length + p.length < 2
      · rw [if_pos hsmall] at hrun
        cases hrun
        omega
      · rw [if_neg hsmall] at hrun
        set need := 2 - s.rx_buffer_encrypted.length with hneed
        set rx1 := s.rx_buffer_encrypted ++ p.take need with hrx1
        set p1 := p.drop need with hp1
        set e2 := declaredLen rx1 with he2
        by_cases hpart : rx1.length + p1.length < e2 + 2
        · rw [if_pos hpart] at hrun
          cases hrun
          omega
        · rw [if_neg hpart] at hrun
          by_cases hun : e2 < 16
          · rw [if_pos hun] at hrun
            cases hrun
          · rw [if_neg hun] at hrun
            cases htr : ops.tread s.readNonce
                ((rx1 ++ p1.take (e2 + 2 - rx1.length)).drop 2) with
            | none => simp only [htr] at hrun; cases hrun
            | some plain =>
              simp only [htr] at hrun
              cases hrec : injectLoop ops fuel
                  { s with
                    readNonce := s.readNonce + 1
                    rx_buffer_encrypted := []
                    rx_buffer_decrypted :=
                      s.rx_buffer_decrypted ++ plain.take (e2 - 16) }
                  (p1.drop (e2 + 2 - rx1.length)) with
              | ok s2 m =>
                simp only [hrec] at hrun
                cases hrun
                have hm := ih _ _ _ _ hrec
                have hrxl : rx1.length =
                    s.rx_buffer_encrypted.length + min need p.length := by
                  simp [hrx1]
                have hp1l : p1.length = p.length - need := by simp [hp1]
                have hp2l : (p1.drop (e2 + 2 - rx1.length)).length =
                    p1.length - (e2 + 2 - rx1.length) := by simp
                omega
              | cipherError => simp only [hrec] at hrun; cases hrun
              | panic => simp only [hrec] at hrun; cases hrun

/-- Wrapper form of `injectLoop_consumed_le`. -/
theorem inject_consumed_le (ops : CryptoOps) (s : Noise) (p : List Nat)
    (s' : Noise) (n : Nat)
    (hrun : Noise.inject_inbound_data ops s p = .ok s' n) : n ≤ p.length := by
  unfold Noise.inject_inbound_data at hrun
  exact injectLoop_consumed_le ops _ s p s' n hrun

/-- At the high-water mark the wrapper consumes nothing. -/
theorem inject_at_threshold (ops : CryptoOps) (s : Noise) (p : List Nat)
    (hthr : rxQueueThreshold ≤ s.rx_buffer_decrypted.length) :
    Noise.inject_inbound_data ops s p = .ok s 0 :=
  injectLoop_at_threshold ops _ s p hthr

/-- Below two available bytes the call buffers everything offered. -/
theorem inject_buffer (ops : CryptoOps) (s : Noise) (p : List Nat)
    (hthr : ¬rxQueueThreshold ≤ s.rx_buffer_decrypted.length)
    (hsmall : s.rx_buffer_encrypted.length + p.length < 2) :
    Noise.inject_inbound_data ops s p =
      .ok { s with rx_buffer_encrypted := s.rx_buffer_encrypted ++ p }
        p.length := by
  rw [inject_inbound_step]
  unfold injectStepFn
  rw [if_neg hthr, if_pos hsmall]

/-- On an empty inbound buffer and no payload the call is a no-op. -/
theorem inject_nil_of_rxnil (ops : CryptoOps) (s : Noise)
    (hrx : s.rx_buffer_encrypted = []) :
    Noise.inject_inbound_data ops s [] = .ok s 0 := by
  by_cases hthr : rxQueueThreshold ≤ s.rx_buffer_decrypted.length
  · exact inject_at_threshold ops s [] hthr
  · rw [inject_buffer ops s [] hthr (by simp [hrx])]
    rw [List.append_nil]
    rfl

/-- The `inject_inbound_data` loop body after the length prefix has been
assembled: `rx1` is the buffered data (prefix included), `p1` the rest of
the payload and `already` the payload bytes consumed so far by the call. -/
def injectTail (ops : CryptoOps) (s : Noise) (rx1 p1 : List Nat)
    (already : Nat) : TRes :=
  let e2 := declaredLen rx1
  if rx1.length + p1.length < e2 + 2 then
    .ok { s with rx_buffer_encrypted := rx1 ++ p1 } (already + p1.length)
  else
    let toCopy := e2 + 2 - rx1.length
    if e2 < 16 then .panic
    else
      match ops.tread s.readNonce ((rx1 ++ p1.take toCopy).drop 2) with
      | none => .cipherError
      | some plain =>
        match Noise.inject_inbound_data ops
            { s with
              readNonce := s.readNonce + 1
              rx_buffer_encrypted := []
              rx_buffer_decrypted :=
                s.rx_buffer_decrypted ++ plain.take (e2 - 16) }
            (p1.drop toCopy) with
        | .ok s2 m => .ok s2 (already + toCopy + m)
        | e => e

/-- Away from the threshold and with at least two bytes available,
`inject_inbound_data` is the tail computation on the assembled prefix. -/
theorem inject_to_tail (ops : CryptoOps) (s : Noise) (p : List Nat)
    (hthr : ¬rxQueueThreshold ≤ s.rx_buffer_decrypted.length)
    (hsmall : ¬s.rx_buffer_encrypted.length + p.length < 2) :
    Noise.inject_inbound_data ops s p =
      injectTail ops s
        (s.rx_buffer_encrypted ++ p.take (2 - s.rx_buffer_encrypted.length))
        (p.drop (2 - s.rx_buffer_encrypted.length))
        (2 - s.rx_buffer_encrypted.length) := by
  rw [inject_inbound_step]
  unfold injectStepFn injectTail
  rw [if_neg hthr, if_neg hsmall]
  have hplen : p.length =
      (2 - s.rx_buffer_encrypted.length) +
        (p.drop (2 - s.rx_buffer_encrypted.length)).length := by
    simp
    omega
  by_cases hpart :
      (s.rx_buffer_encrypted ++ p.take (2 - s.rx_buffer_encrypted.length)).length +
        (p.drop (2 - s.rx_buffer_encrypted.length)).length <
      declaredLen
        (s.rx_buffer_encrypted ++ p.take (2 - s.rx_buffer_encrypted.length)) + 2
  · simp only [if_pos hpart]
    rw [hplen]
  · simp only [if_neg hpart]

/-- The tail computation ignores the session's inbound buffer field. -/
theorem injectTail_rx (ops : CryptoOps) (s : Noise) (x rx1 p1 : List Nat)
    (a : Nat) :
    injectTail ops { s with rx_buffer_encrypted := x } rx1 p1 a =
      injectTail ops s rx1 p1 a := rfl

/-- Shifting the already-consumed count shifts the reported count. -/
theorem injectTail_shift (ops : CryptoOps) (s : Noise) (rx1 p1 : List Nat)
    (a k : Nat) :
    injectTail ops s rx1 p1 (k + a) =
      match injectTail ops s rx1 p1 a with
      | .ok s2 m => .ok s2 (k + m)
      | e => e := by
  unfold injectTail
  by_cases hpart : rx1.length + p1.length < declaredLen rx1 + 2
  · simp only [if_pos hpart]
    simp [Nat.add_assoc]
  · simp only [if_neg hpart]
    by_cases hun : declaredLen rx1 < 16
    · simp only [if_pos hun]
    · simp only [if_neg hun]
      cases htr : ops.tread s.readNonce
          ((rx1 ++ p1.take (declaredLen rx1 + 2 - rx1.length)).drop 2) with
      | none => simp only [htr]
      | some plain =>
        simp only [htr]
        cases hrec : Noise.inject_inbound_data ops
            { s with
              readNonce := s.readNonce + 1
              rx_buffer_encrypted := []
              rx_buffer_decrypted :=
                s.rx_buffer_decrypted ++ plain.take (declaredLen rx1 - 16) }
            (p1.drop (declaredLen rx1 + 2 - rx1.length)) with
        | ok s2 m =>
          simp only [hrec]
          simp [Nat.add_assoc]
        | cipherError => simp only [hrec]
        | panic => simp only [hrec]

/-- The first two buffered bytes fix the declared frame length. -/
theorem declaredLen_append (a b : List Nat) (h : 2 ≤ a.length) :
    declaredLen (a ++ b) = declaredLen a := by
  unfold declaredLen
  rw [List.getD_append _ _ _ _ (by omega), List.getD_append _ _ _ _ (by omega)]

/-- Refilling an incomplete frame before offering more bytes is the same as
offering everything at once. -/
theorem injectTail_refill (ops : CryptoOps) (s : Noise) (rx1 p1 q : List Nat)
    (a : Nat) (h2 : 2 ≤ rx1.length)
    (hpart : rx1.length + p1.length < declaredLen rx1 + 2) :
    injectTail ops s rx1 (p1 ++ q) a =
      injectTail ops s (rx1 ++ p1) q (a + p1.length) := by
  simp only [injectTail]
  rw [declaredLen_append rx1 p1 h2]
  by_cases hq : rx1.length + (p1 ++ q).length < declaredLen rx1 + 2
  · rw [if_pos hq, if_pos (show (rx1 ++ p1).length + q.length <
        declaredLen rx1 + 2 by
      simp only [List.length_append] at hq ⊢
      omega)]
    simp [Nat.add_assoc]
  · rw [if_neg hq, if_neg (show ¬((rx1 ++ p1).length + q.length <
        declaredLen rx1 + 2) by
      simp only [List.length_append] at hq ⊢
      omega)]
    set k := declaredLen rx1 + 2 - rx1.length - p1.length with hk
    have h1 : declaredLen rx1 + 2 - rx1.length = p1.length + k := by omega
    have h2' : declaredLen rx1 + 2 - (rx1 ++ p1).length = k := by
      simp only [List.length_append]
      omega
    rw [h2', h1, List.take_append, List.drop_append, List.append_assoc]
    by_cases hun : declaredLen rx1 < 16
    · simp only [if_pos hun]
    · simp only [if_neg hun]
      cases htr : ops.tread s.readNonce ((rx1 ++ (p1 ++ q.take k)).drop 2) with
      | none => simp only [htr]
      | some plain =>
        simp only [htr]
        cases hrec : Noise.inject_inbound_data ops
            { s with
              readNonce := s.readNonce + 1
              rx_buffer_encrypted := []
              rx_buffer_decrypted :=
                s.rx_buffer_decrypted ++ plain.take (declaredLen rx1 - 16) }
            (q.drop k) with
        | ok s2 m =>
          simp only [hrec]
          rw [show a + (p1.length + k) + m = a + p1.length + k + m from by omega]
        | cipherError => simp only [hrec]
        | panic => simp only [hrec]
/-- Sequential composition of two `inject_inbound_data` calls: feed `p`,
then feed the unconsumed remainder of `p` followed by `q`, adding up the
consumed counts. -/
def injectCompose (ops : CryptoOps) (s : Noise) (p q : List Nat) : TRes :=
  match Noise.inject_inbound_data ops s p with
  | .ok s1 n1 =>
    match Noise.inject_inbound_data ops s1 (p.drop n1 ++ q) with
    | .ok s2 n2 => .ok s2 (n1 + n2)
    | e => e
  | e => e

/-- Cutting the transport byte stream anywhere is invisible: one call on
`p ++ q` equals the sequential composition of a call on `p` and a call on
the leftover plus `q`. -/
theorem inject_inbound_append (ops : CryptoOps) :
    ∀ (N : Nat) (s : Noise) (p q : List Nat),
      s.rx_buffer_encrypted.length + p.length ≤ N →
      Noise.inject_inbound_data ops s (p ++ q) = injectCompose ops s p q := by
  intro N
  induction N with
  | zero =>
    intro s p q hN
    have hrx : s.rx_buffer_encrypted = [] := by
      rw [← List.length_eq_zero]
      omega
    have hp : p = [] := by
      rw [← List.length_eq_zero]
      omega
    subst hp
    unfold injectCompose
    rw [inject_nil_of_rxnil ops s hrx]
    simp only [List.nil_append, List.drop_nil]
    cases hr : Noise.inject_inbound_data ops s q with
    | ok s2 n2 => simp [hr]
    | cipherError => simp [hr]
    | panic => simp [hr]
  | succ N ih =>
    intro s p q hN
    unfold injectCompose
    by_cases hthr : rxQueueThreshold ≤ s.rx_buffer_decrypted.length
    · rw [inject_at_threshold ops s (p ++ q) hthr,
        inject_at_threshold ops s p hthr]
      simp only [List.drop_zero]
      rw [inject_at_threshold ops s (p ++ q) hthr]
    · by_cases hsmall2 : s.rx_buffer_encrypted.length + (p ++ q).length < 2
      · have hsp : s.rx_buffer_encrypted.length + p.length < 2 := by
          simp only [List.length_append] at hsmall2
          omega
        rw [inject_buffer ops s (p ++ q) hthr hsmall2,
          inject_buffer ops s p hthr hsp]
        simp only [List.drop_length, List.nil_append]
        rw [inject_buffer ops
          { s with rx_buffer_encrypted := s.rx_buffer_encrypted ++ p } q hthr
          (show (s.rx_buffer_encrypted ++ p).length + q.length < 2 by
            simp only [List.length_append] at hsmall2 ⊢
            omega)]
        simp [List.append_assoc, Nat.add_assoc]
      · by_cases hsp : s.rx_buffer_encrypted.length + p.length < 2
        · -- the whole of `p` disappears into the prefix assembly
          rw [inject_buffer ops s p hthr hsp]
          simp only [List.drop_length, List.nil_append]
          rw [inject_to_tail ops s (p ++ q) hthr hsmall2]
          rw [inject_to_tail ops
            { s with rx_buffer_encrypted := s.rx_buffer_encrypted ++ p } q hthr
            (show ¬((s.rx_buffer_encrypted ++ p).length + q.length < 2) by
              simp only [List.length_append] at hsmall2 ⊢
              omega)]
          rw [injectTail_rx]
          dsimp only
          rw [show (s.rx_buffer_encrypted ++ p).length =
            s.rx_buffer_encrypted.length + p.length from by simp]
          rw [show 2 - s.rx_buffer_encrypted.length =
            p.length + (2 - (s.rx_buffer_encrypted.length + p.length)) from by
              omega]
          rw [List.take_append, List.drop_append, ← List.append_assoc]
          exact injectTail_shift ops s _ _ _ p.length
        · -- at least the prefix of the first frame lies inside `p`
          rw [inject_to_tail ops s (p ++ q) hthr hsmall2,
            inject_to_tail ops s p hthr hsp]
          have htk : (p ++ q).take (2 - s.rx_buffer_encrypted.length) =
              p.take (2 - s.rx_buffer_encrypted.length) :=
            List.take_append_of_le_length (by omega)
          have hdr : (p ++ q).drop (2 - s.rx_buffer_encrypted.length) =
              p.drop (2 - s.rx_buffer_encrypted.length) ++ q :=
            List.drop_append_of_le_length (by omega)
          rw [htk, hdr]
          set need := 2 - s.rx_buffer_encrypted.length with hneed
          set RX1 := s.rx_buffer_encrypted ++ p.take need with hRX1
          set P1 := p.drop need with hP1
          have hRX1l : RX1.length =
              s.rx_buffer_encrypted.length + min need p.length := by
            rw [hRX1]
            simp
          have hP1l : P1.length = p.length - need := by
            rw [hP1]
            simp
          have h2R : 2 ≤ RX1.length := by omega
          by_cases hpart1 : RX1.length + P1.length < declaredLen RX1 + 2
          · rw [injectTail_refill ops s RX1 P1 q need h2R hpart1]
            rw [show injectTail ops s RX1 P1 need =
              .ok { s with rx_buffer_encrypted := RX1 ++ P1 }
                (need + P1.length) from by
                simp only [injectTail]
                rw [if_pos hpart1]]
            have hfull : need + P1.length = p.length := by omega
            simp only [hfull, List.drop_length, List.nil_append]
            rw [inject_to_tail ops
              { s with rx_buffer_encrypted := RX1 ++ P1 } q hthr
              (show ¬((RX1 ++ P1).length + q.length < 2) by
                simp only [List.length_append]
                omega)]
            dsimp only
            rw [show 2 - (RX1 ++ P1).length = 0 from by
              simp only [List.length_append]
              omega]
            rw [List.take_zero, List.append_nil, List.drop_zero]
            exact injectTail_shift ops s (RX1 ++ P1) q 0 p.length
          · simp only [injectTail]
            rw [if_neg (show ¬(RX1.length + (P1 ++ q).length <
                declaredLen RX1 + 2) by
              simp only [List.length_append]
              omega)]
            rw [if_neg hpart1]
            by_cases hun : declaredLen RX1 < 16
            · rw [if_pos hun, if_pos hun]
            · rw [if_neg hun, if_neg hun]
              have htc : declaredLen RX1 + 2 - RX1.length ≤ P1.length := by
                omega
              rw [List.take_append_of_le_length htc,
                List.drop_append_of_le_length htc]
              cases htr : ops.tread s.readNonce
                  ((RX1 ++ P1.take (declaredLen RX1 + 2 - RX1.length)).drop 2) with
              | none => simp only [htr]
              | some plain =>
                simp only [htr]
                set s3 : Noise :=
                  { s with
                    readNonce := s.readNonce + 1
                    rx_buffer_encrypted := []
                    rx_buffer_decrypted :=
                      s.rx_buffer_decrypted ++
                        plain.take (declaredLen RX1 - 16) } with hs3
                set pa := P1.drop (declaredLen RX1 + 2 - RX1.length) with hpa
                have hmeas : s3.rx_buffer_encrypted.length + pa.length ≤ N := by
                  rw [hs3, hpa]
                  simp only [List.length_drop, List.length_nil]
                  omega
                rw [ih s3 pa q hmeas]
                unfold injectCompose
                cases hr1 : Noise.inject_inbound_data ops s3 pa with
                | cipherError => simp only [hr1]
                | panic => simp only [hr1]
                | ok s1 m1 =>
                  simp only [hr1]
                  have hdd : p.drop
                      (need + (declaredLen RX1 + 2 - RX1.length) + m1) =
                      pa.drop m1 := by
                    rw [hpa, hP1, List.drop_drop, List.drop_drop]
                    congr 1
                    omega
                  rw [hdd]
                  cases hr2 : Noise.inject_inbound_data ops s1
                      (pa.drop m1 ++ q) with
                  | cipherError => simp only [hr2]
                  | panic => simp only [hr2]
                  | ok s2 m2 =>
                    simp only [hr2]
                    rw [show need + (declaredLen RX1 + 2 - RX1.length) +
                      (m1 + m2) =
                      need + (declaredLen RX1 + 2 - RX1.length) + m1 + m2 from
                      by omega]

/-- The message-write/completion tail reports exactly the byte count it is
handed. -/
theorem finishMessage_count (ops : CryptoOps) (h2 : HandshakeInProgress)
    (t : Nat) (st : NoiseHandshake) (n : Nat)
    (hrun : finishMessage ops h2 t = .ok (st, n)) : n = t := by
  unfold finishMessage at hrun
  cases hup : update_message_write ops h2 with
  | none => simp only [hup] at hrun; cases hrun
  | some h3 =>
    simp only [hup] at hrun
    cases htf : try_finish h3 with
    | none => simp only [htf] at hrun; cases hrun
    | some st2 =>
      simp only [htf] at hrun
      cases hrun
      rfl

/-- Shifting the byte count handed to the tail shifts the reported count. -/
theorem finishMessage_shift (ops : CryptoOps) (h2 : HandshakeInProgress)
    (t k : Nat) :
    finishMessage ops h2 (k + t) =
      match finishMessage ops h2 t with
      | .ok (st, n) => .ok (st, k + n)
      | e => e := by
  unfold finishMessage
  cases hup : update_message_write ops h2 with
  | none => simp
  | some h3 =>
    simp only
    cases htf : try_finish h3 with
    | none => simp
    | some st2 => simp

/-- In-progress results of the tail still hold the processed message's
bookkeeping: empty inbound buffer and decremented remaining count. -/
theorem finishMessage_shape (ops : CryptoOps) (h2 : HandshakeInProgress)
    (t : Nat) (st : NoiseHandshake) (n : Nat)
    (hrun : finishMessage ops h2 t = .ok (st, n)) :
    ∀ h1, st = .InProgress h1 →
      h1.rx_messages_remain = h2.rx_messages_remain ∧
      h1.rx_buffer_encrypted = h2.rx_buffer_encrypted := by
  intro h1 hst
  unfold finishMessage at hrun
  cases hup : update_message_write ops h2 with
  | none => simp only [hup] at hrun; cases hrun
  | some h3 =>
    simp only [hup] at hrun
    cases htf : try_finish h3 with
    | none => simp only [htf] at hrun; cases hrun
    | some st2 =>
      simp only [htf] at hrun
      cases hrun
      subst hst
      obtain ⟨heq, -⟩ := try_finish_inprogress h3 h1 htf
      subst heq
      rcases update_message_write_shape ops h2 h1 hup with rfl | ⟨-, -, -, -, h5, h6⟩
      · exact ⟨rfl, rfl⟩
      · exact ⟨h5, h6⟩

/-- `processMessage` reports exactly the byte count it is handed. -/
theorem processMessage_count (ops : CryptoOps) (h : HandshakeInProgress)
    (plain : List Nat) (e2 t : Nat) (st : NoiseHandshake) (n : Nat)
    (hrun : processMessage ops h plain e2 t = .ok (st, n)) : n = t := by
  unfold processMessage at hrun
  cases hrx : h.rx_payload with
  | NthMessage k =>
    cases k with
    | zero =>
      simp only [hrx] at hrun
      cases hdec : decodeWithFallback ops (plain.take e2) with
      | none => simp only [hdec] at hrun; cases hrun
      | some hp =>
        simp only [hdec] at hrun
        cases hkey : ops.decodeKey hp.identity_key with
        | none => simp only [hkey] at hrun; cases hrun
        | some key =>
          simp only [hkey] at hrun
          cases hrs : getRemoteStatic ops h.isInitiator (h.msgCount + 1) with
          | none => simp only [hrs] at hrun; cases hrun
          | some rs =>
            simp only [hrs] at hrun
            by_cases hver : ops.verify key (noiseStaticKeyDomain ++ rs)
                hp.identity_sig = true
            · rw [if_pos hver] at hrun
              exact finishMessage_count ops _ _ _ _ hrun
            · rw [if_neg hver] at hrun
              cases hrun
    | succ m =>
      simp only [hrx] at hrun
      by_cases hemp : (plain.take e2).isEmpty = true
      · rw [if_pos hemp] at hrun
        exact finishMessage_count ops _ _ _ _ hrun
      · rw [if_neg hemp] at hrun
        cases hrun
  | Received pid =>
    simp only [hrx] at hrun
    by_cases hemp : (plain.take e2).isEmpty = true
    · rw [if_pos hemp] at hrun
      exact finishMessage_count ops _ _ _ _ hrun
    · rw [if_neg hemp] at hrun
      cases hrun

/-- `processMessage` does not read the inbound buffer of the session. -/
theorem processMessage_rx (ops : CryptoOps) (h : HandshakeInProgress)
    (x plain : List Nat) (e2 t : Nat) :
    processMessage ops { h with rx_buffer_encrypted := x } plain e2 t =
      processMessage ops h plain e2 t := rfl

/-- Shifting the byte count handed to `processMessage` shifts the reported
count. -/
theorem processMessage_shift (ops : CryptoOps) (h : HandshakeInProgress)
    (plain : List Nat) (e2 t k : Nat) :
    processMessage ops h plain e2 (k + t) =
      match processMessage ops h plain e2 t with
      | .ok (st, n) => .ok (st, k + n)
      | e => e := by
  unfold processMessage
  cases hrx : h.rx_payload with
  | NthMessage j =>
    cases j with
    | zero =>
      simp only
      cases hdec : decodeWithFallback ops (plain.take e2) with
      | none => simp
      | some hp =>
        simp only
        cases hkey : ops.decodeKey hp.identity_key with
        | none => simp
        | some key =>
          simp only
          cases hrs : getRemoteStatic ops h.isInitiator (h.msgCount + 1) with
          | none => simp
          | some rs =>
            simp only
            by_cases hver : ops.verify key (noiseStaticKeyDomain ++ rs)
                hp.identity_sig = true
            · rw [if_pos hver, if_pos hver]
              exact finishMessage_shift ops _ t k
            · rw [if_neg hver, if_neg hver]
    | succ m =>
      simp only
      by_cases hemp : (plain.take e2).isEmpty = true
      · rw [if_pos hemp, if_pos hemp]
        exact finishMessage_shift ops _ t k
      · rw [if_neg hemp, if_neg hemp]
  | Received pid =>
    simp only
    by_cases hemp : (plain.take e2).isEmpty = true
    · rw [if_pos hemp, if_pos hemp]
      exact finishMessage_shift ops _ t k
    · rw [if_neg hemp, if_neg hemp]

/-- In-progress results of `processMessage` carry an emptied inbound
buffer and a decremented remaining-message count. -/
theorem processMessage_shape (ops : CryptoOps) (h : HandshakeInProgress)
    (plain : List Nat) (e2 t : Nat) (st : NoiseHandshake) (n : Nat)
    (hrun : processMessage ops h plain e2 t = .ok (st, n)) :
    ∀ h1, st = .InProgress h1 →
      h1.rx_messages_remain = h.rx_messages_remain - 1 ∧
      h1.rx_buffer_encrypted = [] := by
  intro h1 hst
  unfold processMessage at hrun
  cases hrx : h.rx_payload with
  | NthMessage k =>
    cases k with
    | zero =>
      simp only [hrx] at hrun
      cases hdec : decodeWithFallback ops (plain.take e2) with
      | none => simp only [hdec] at hrun; cases hrun
      | some hp =>
        simp only [hdec] at hrun
        cases hkey : ops.decodeKey hp.identity_key with
        | none => simp only [hkey] at hrun; cases hrun
        | some key =>
          simp only [hkey] at hrun
          cases hrs : getRemoteStatic ops h.isInitiator (h.msgCount + 1) with
          | none => simp only [hrs] at hrun; cases hrun
          | some rs =>
            simp only [hrs] at hrun
            by_cases hver : ops.verify key (noiseStaticKeyDomain ++ rs)
                hp.identity_sig = true
            · rw [if_pos hver] at hrun
              exact finishMessage_shape ops _ _ _ _ hrun h1 hst
            · rw [if_neg hver] at hrun
              cases hrun
    | succ m =>
      simp only [hrx] at hrun
      by_cases hemp : (plain.take e2).isEmpty = true
      · rw [if_pos hemp] at hrun
        exact finishMessage_shape ops _ _ _ _ hrun h1 hst
      · rw [if_neg hemp] at hrun
        cases hrun
  | Received pid =>
    simp only [hrx] at hrun
    by_cases hemp : (plain.take e2).isEmpty = true
    · rw [if_pos hemp] at hrun
      exact finishMessage_shape ops _ _ _ _ hrun h1 hst
    · rw [if_neg hemp] at hrun
      cases hrun

/-- Tail of `inject_data` once the two length-prefix bytes are available:
`rx1` is the buffer holding at least the prefix, `p1` the bytes still on
offer, and `already` the bytes consumed so far by this call. -/
def injectDataTail (ops : CryptoOps) (h : HandshakeInProgress)
    (rx1 p1 : List Nat) (already : Nat) : HRes (NoiseHandshake × Nat) :=
  let e2 := declaredLen rx1
  let toCopy := min (e2 + 2 - rx1.length) p1.length
  let rx2 := rx1 ++ p1.take toCopy
  if rx2.length < e2 + 2 then
    .ok (.InProgress { h with rx_buffer_encrypted := rx2 }, already + toCopy)
  else
    match engineRead ops h.isInitiator h.msgCount (rx2.drop 2) with
    | none => .err .Cipher
    | some plain => processMessage ops h plain e2 (already + toCopy)

/-- With no message pending, `inject_data` consumes nothing and changes
nothing. -/
theorem injectData_zero_remain (ops : CryptoOps) (h : HandshakeInProgress)
    (p : List Nat) (hrem : h.rx_messages_remain = 0) :
    injectData ops h p = .ok (.InProgress h, 0) := by
  unfold injectData
  rw [if_pos hrem]

/-- With under two bytes available in total, `inject_data` buffers
everything it is offered. -/
theorem injectData_tiny (ops : CryptoOps) (h : HandshakeInProgress)
    (p : List Nat) (hrem : ¬h.rx_messages_remain = 0)
    (htiny : h.rx_buffer_encrypted.length + p.length < 2) :
    injectData ops h p =
      .ok (.InProgress { h with
        rx_buffer_encrypted := h.rx_buffer_encrypted ++ p }, p.length) := by
  unfold injectData
  rw [if_neg hrem, if_pos htiny]

/-- Past the guards, `inject_data` is its tail on the refilled prefix. -/
theorem injectData_to_tail (ops : CryptoOps) (h : HandshakeInProgress)
    (p : List Nat) (hrem : ¬h.rx_messages_remain = 0)
    (hbig : ¬(h.rx_buffer_encrypted.length + p.length < 2)) :
    injectData ops h p =
      injectDataTail ops h
        (h.rx_buffer_encrypted ++ p.take (2 - h.rx_buffer_encrypted.length))
        (p.drop (2 - h.rx_buffer_encrypted.length))
        (2 - h.rx_buffer_encrypted.length) := by
  unfold injectData injectDataTail
  rw [if_neg hrem, if_neg hbig]

/-- The `inject_data` tail does not read the inbound buffer field. -/
theorem injectDataTail_rx (ops : CryptoOps) (h : HandshakeInProgress)
    (x rx1 p1 : List Nat) (a : Nat) :
    injectDataTail ops { h with rx_buffer_encrypted := x } rx1 p1 a =
      injectDataTail ops h rx1 p1 a := rfl

/-- Shifting the consumed-so-far count of the tail shifts its reported
count. -/
theorem injectDataTail_shift (ops : CryptoOps) (h : HandshakeInProgress)
    (rx1 p1 : List Nat) (a k : Nat) :
    injectDataTail ops h rx1 p1 (k + a) =
      match injectDataTail ops h rx1 p1 a with
      | .ok (st, n) => .ok (st, k + n)
      | e => e := by
  simp only [injectDataTail]
  by_cases hc : (rx1 ++ p1.take (min (declaredLen rx1 + 2 - rx1.length)
      p1.length)).length < declaredLen rx1 + 2
  · rw [if_pos hc, if_pos hc]
    simp [Nat.add_assoc]
  · rw [if_neg hc, if_neg hc]
    cases hread : engineRead ops h.isInitiator h.msgCount
        ((rx1 ++ p1.take (min (declaredLen rx1 + 2 - rx1.length)
          p1.length)).drop 2) with
    | none => simp
    | some plain =>
      simp only
      rw [show k + a + min (declaredLen rx1 + 2 - rx1.length) p1.length =
        k + (a + min (declaredLen rx1 + 2 - rx1.length) p1.length) from by
          omega]
      exact processMessage_shift ops h plain _ _ k

/-- Refilling an incomplete frame before offering more bytes is the same
as offering everything at once. -/
theorem injectDataTail_refill (ops : CryptoOps) (h : HandshakeInProgress)
    (rx1 p1 q : List Nat) (a : Nat) (h2 : 2 ≤ rx1.length)
    (hpart : rx1.length + p1.length < declaredLen rx1 + 2) :
    injectDataTail ops h rx1 (p1 ++ q) a =
      injectDataTail ops h (rx1 ++ p1) q (a + p1.length) := by
  simp only [injectDataTail]
  rw [declaredLen_append rx1 p1 h2]
  rw [show min (declaredLen rx1 + 2 - rx1.length) (p1 ++ q).length =
      p1.length + min (declaredLen rx1 + 2 - (rx1 ++ p1).length) q.length
    from by
      simp only [List.length_append]
      omega]
  rw [List.take_append]
  rw [show a + (p1.length +
      min (declaredLen rx1 + 2 - (rx1 ++ p1).length) q.length) =
    a + p1.length +
      min (declaredLen rx1 + 2 - (rx1 ++ p1).length) q.length from by omega]
  simp only [← List.append_assoc]

/-- A tail call that leaves the frame incomplete hands back a buffering
result holding all offered bytes. -/
theorem injectDataTail_buffers (ops : CryptoOps) (h : HandshakeInProgress)
    (rx1 p1 : List Nat) (a : Nat)
    (hpart : (rx1 ++ p1.take (min (declaredLen rx1 + 2 - rx1.length)
      p1.length)).length < declaredLen rx1 + 2) :
    injectDataTail ops h rx1 p1 a =
      .ok (.InProgress { h with rx_buffer_encrypted := rx1 ++ p1 },
           a + p1.length) := by
  have htc : min (declaredLen rx1 + 2 - rx1.length) p1.length = p1.length := by
    simp only [List.length_append, List.length_take] at hpart
    omega
  simp only [injectDataTail]
  rw [if_pos hpart, htc, List.take_length]

/-- Composing `inject_data` across a cut in the input stream: the call on
`p ++ q` agrees with calling on `p` and then, exactly when the first call
merely buffered (consuming all of `p` without completing a message, which
the unchanged remaining-message count detects), calling on `q` from the
state it reached. -/
theorem injectData_append (ops : CryptoOps) (h : HandshakeInProgress)
    (p q : List Nat) :
    injectData ops h (p ++ q) =
      match injectData ops h p with
      | .ok (.InProgress h1, n1) =>
        if n1 = p.length ∧ h1.rx_messages_remain = h.rx_messages_remain then
          match injectData ops h1 q with
          | .ok (st, n2) => .ok (st, p.length + n2)
          | e => e
        else .ok (.InProgress h1, n1)
      | r => r := by
  by_cases hrem : h.rx_messages_remain = 0
  · rw [injectData_zero_remain ops h p hrem]
    show injectData ops h (p ++ q) =
      if 0 = p.length ∧ h.rx_messages_remain = h.rx_messages_remain then
        (match injectData ops h q with
         | .ok (st, n2) => .ok (st, p.length + n2)
         | e => e)
      else .ok (.InProgress h, 0)
    by_cases hp : p.length = 0
    · rw [if_pos ⟨hp.symm, rfl⟩]
      have hpnil : p = [] := List.length_eq_zero.mp hp
      subst hpnil
      simp [injectData_zero_remain ops h q hrem]
    · rw [if_neg (by rintro ⟨hc, -⟩; exact hp hc.symm)]
      exact injectData_zero_remain ops h (p ++ q) hrem
  · by_cases htot : h.rx_buffer_encrypted.length + (p ++ q).length < 2
    · -- under two bytes in total: everything on both sides is buffered
      have htp : h.rx_buffer_encrypted.length + p.length < 2 := by
        simp only [List.length_append] at htot
        omega
      rw [injectData_tiny ops h p hrem htp]
      show injectData ops h (p ++ q) =
        if p.length = p.length ∧
            h.rx_messages_remain = h.rx_messages_remain then
          (match injectData ops
              { h with rx_buffer_encrypted := h.rx_buffer_encrypted ++ p } q
            with
           | .ok (st, n2) => .ok (st, p.length + n2)
           | e => e)
        else .ok (.InProgress
          { h with rx_buffer_encrypted := h.rx_buffer_encrypted ++ p },
          p.length)
      rw [if_pos ⟨rfl, rfl⟩]
      rw [injectData_tiny ops h (p ++ q) hrem htot]
      rw [injectData_tiny ops
          { h with rx_buffer_encrypted := h.rx_buffer_encrypted ++ p } q
          (by exact hrem)
          (by
            show (h.rx_buffer_encrypted ++ p).length + q.length < 2
            simp only [List.length_append] at htot ⊢
            omega)]
      show HRes.ok (NoiseHandshake.InProgress
          { h with rx_buffer_encrypted :=
              h.rx_buffer_encrypted ++ (p ++ q) }, (p ++ q).length) =
        .ok (.InProgress
          { h with rx_buffer_encrypted :=
              (h.rx_buffer_encrypted ++ p) ++ q }, p.length + q.length)
      rw [← List.append_assoc, List.length_append]
    · by_cases htp : h.rx_buffer_encrypted.length + p.length < 2
      · -- `p` is swallowed whole by the buffer; frame assembly begins in `q`
        rw [injectData_tiny ops h p hrem htp]
        show injectData ops h (p ++ q) =
          if p.length = p.length ∧
              h.rx_messages_remain = h.rx_messages_remain then
            (match injectData ops
                { h with rx_buffer_encrypted := h.rx_buffer_encrypted ++ p } q
              with
             | .ok (st, n2) => .ok (st, p.length + n2)
             | e => e)
          else .ok (.InProgress
            { h with rx_buffer_encrypted := h.rx_buffer_encrypted ++ p },
            p.length)
        rw [if_pos ⟨rfl, rfl⟩]
        have hHq : injectData ops
            { h with rx_buffer_encrypted := h.rx_buffer_encrypted ++ p } q =
            injectDataTail ops h
              ((h.rx_buffer_encrypted ++ p) ++
                q.take (2 - (h.rx_buffer_encrypted.length + p.length)))
              (q.drop (2 - (h.rx_buffer_encrypted.length + p.length)))
              (2 - (h.rx_buffer_encrypted.length + p.length)) := by
          rw [injectData_to_tail ops _ q (by exact hrem)
            (by
              show ¬((h.rx_buffer_encrypted ++ p).length + q.length < 2)
              simp only [List.length_append] at htot ⊢
              omega)]
          show injectDataTail ops h
            ((h.rx_buffer_encrypted ++ p) ++
              q.take (2 - (h.rx_buffer_encrypted ++ p).length))
            (q.drop (2 - (h.rx_buffer_encrypted ++ p).length))
            (2 - (h.rx_buffer_encrypted ++ p).length) = _
          rw [show (2 : Nat) - (h.rx_buffer_encrypted ++ p).length =
            2 - (h.rx_buffer_encrypted.length + p.length) from by
              rw [List.length_append]]
        rw [hHq]
        rw [injectData_to_tail ops h (p ++ q) hrem htot]
        rw [show (2 : Nat) - h.rx_buffer_encrypted.length =
          p.length + (2 - (h.rx_buffer_encrypted.length + p.length)) from by
            omega]
        rw [List.take_append, List.drop_append]
        rw [← List.append_assoc]
        rw [injectDataTail_shift ops h
          ((h.rx_buffer_encrypted ++ p) ++
            q.take (2 - (h.rx_buffer_encrypted.length + p.length)))
          (q.drop (2 - (h.rx_buffer_encrypted.length + p.length)))
          (2 - (h.rx_buffer_encrypted.length + p.length)) p.length]
      · -- at least the length prefix is determined by `rx ++ p`
        rw [injectData_to_tail ops h (p ++ q) hrem htot,
            injectData_to_tail ops h p hrem htp]
        rw [List.take_append_of_le_length
              (show 2 - h.rx_buffer_encrypted.length ≤ p.length from by
                omega),
            List.drop_append_of_le_length
              (show 2 - h.rx_buffer_encrypted.length ≤ p.length from by
                omega)]
        set RX1 := h.rx_buffer_encrypted ++
          p.take (2 - h.rx_buffer_encrypted.length) with hRX1
        set P1 := p.drop (2 - h.rx_buffer_encrypted.length) with hP1
        have h2rx1 : 2 ≤ RX1.length := by
          rw [hRX1]
          simp only [List.length_append, List.length_take]
          omega
        have hP1len : P1.length =
            p.length - (2 - h.rx_buffer_encrypted.length) := by
          rw [hP1, List.length_drop]
        by_cases hpart : (RX1 ++ P1.take (min (declaredLen RX1 + 2 -
            RX1.length) P1.length)).length < declaredLen RX1 + 2
        · -- the frame stays incomplete after `p`: the first call buffers it
          rw [injectDataTail_buffers ops h RX1 P1
            (2 - h.rx_buffer_encrypted.length) hpart]
          show injectDataTail ops h RX1 (P1 ++ q)
              (2 - h.rx_buffer_encrypted.length) =
            if 2 - h.rx_buffer_encrypted.length + P1.length = p.length ∧
                h.rx_messages_remain = h.rx_messages_remain then
              (match injectData ops
                  { h with rx_buffer_encrypted := RX1 ++ P1 } q with
               | .ok (st, n2) => .ok (st, p.length + n2)
               | e => e)
            else .ok (.InProgress { h with rx_buffer_encrypted := RX1 ++ P1 },
              2 - h.rx_buffer_encrypted.length + P1.length)
          have hcnd : 2 - h.rx_buffer_encrypted.length + P1.length =
              p.length ∧ h.rx_messages_remain = h.rx_messages_remain :=
            ⟨by rw [hP1len]; omega, rfl⟩
          rw [if_pos hcnd]
          have hfull1 : RX1.length + P1.length < declaredLen RX1 + 2 := by
            simp only [List.length_append, List.length_take] at hpart
            omega
          rw [injectDataTail_refill ops h RX1 P1 q
            (2 - h.rx_buffer_encrypted.length) h2rx1 hfull1]
          rw [show 2 - h.rx_buffer_encrypted.length + P1.length =
            p.length + 0 from by rw [hP1len]; omega]
          rw [injectDataTail_shift ops h (RX1 ++ P1) q 0 p.length]
          have hHq : injectData ops
              { h with rx_buffer_encrypted := RX1 ++ P1 } q =
              injectDataTail ops h (RX1 ++ P1) q 0 := by
            rw [injectData_to_tail ops _ q (by exact hrem)
              (by
                show ¬((RX1 ++ P1).length + q.length < 2)
                simp only [List.length_append]
                omega)]
            show injectDataTail ops h
              ((RX1 ++ P1) ++ q.take (2 - (RX1 ++ P1).length))
              (q.drop (2 - (RX1 ++ P1).length))
              (2 - (RX1 ++ P1).length) = _
            rw [show (2 : Nat) - (RX1 ++ P1).length = 0 from by
              simp only [List.length_append]
              omega]
            rw [List.take_zero, List.append_nil, List.drop_zero]
          rw [hHq]
        · -- `rx ++ p` completes the frame: a message is processed and the
          -- composition stops at the first call
          have hTC : min (declaredLen RX1 + 2 - RX1.length)
              (P1 ++ q).length =
              min (declaredLen RX1 + 2 - RX1.length) P1.length := by
            simp only [List.length_append, List.length_take] at hpart
            simp only [List.length_append]
            omega
          have hLHS : injectDataTail ops h RX1 (P1 ++ q)
              (2 - h.rx_buffer_encrypted.length) =
              injectDataTail ops h RX1 P1
                (2 - h.rx_buffer_encrypted.length) := by
            simp only [injectDataTail]
            rw [hTC, List.take_append_of_le_length (Nat.min_le_right _ _)]
          rw [hLHS]
          have hshape : ∀ h1 n,
              injectDataTail ops h RX1 P1
                (2 - h.rx_buffer_encrypted.length) =
                .ok (.InProgress h1, n) →
              h1.rx_messages_remain = h.rx_messages_remain - 1 := by
            intro h1 n hok
            simp only [injectDataTail] at hok
            rw [if_neg hpart] at hok
            cases hread : engineRead ops h.isInitiator h.msgCount
                ((RX1 ++ P1.take (min (declaredLen RX1 + 2 - RX1.length)
                  P1.length)).drop 2) with
            | none => simp only [hread] at hok; cases hok
            | some plain =>
              simp only [hread] at hok
              exact (processMessage_shape ops h plain _ _ _ _ hok h1 rfl).1
          cases hres : injectDataTail ops h RX1 P1
              (2 - h.rx_buffer_encrypted.length) with
          | ok pr =>
            obtain ⟨st, n⟩ := pr
            cases st with
            | InProgress h1 =>
              show HRes.ok (NoiseHandshake.InProgress h1, n) =
                if n = p.length ∧
                    h1.rx_messages_remain = h.rx_messages_remain then
                  (match injectData ops h1 q with
                   | .ok (st, n2) => .ok (st, p.length + n2)
                   | e => e)
                else .ok (.InProgress h1, n)
              rw [if_neg (by
                rintro ⟨-, hc⟩
                rw [hshape h1 n hres] at hc
                omega)]
            | Success c pid => rfl
          | err e => rfl
          | panic => rfl

/-- The tail never consumes more bytes than it was handed plus what is on
offer. -/
theorem injectDataTail_consumed_le (ops : CryptoOps)
    (h : HandshakeInProgress) (rx1 p1 : List Nat) (a : Nat)
    (st : NoiseHandshake) (n : Nat)
    (hrun : injectDataTail ops h rx1 p1 a = .ok (st, n)) :
    n ≤ a + p1.length := by
  simp only [injectDataTail] at hrun
  by_cases hlt : (rx1 ++ p1.take (min (declaredLen rx1 + 2 - rx1.length)
      p1.length)).length < declaredLen rx1 + 2
  · rw [if_pos hlt] at hrun
    have hmin := Nat.min_le_right (declaredLen rx1 + 2 - rx1.length)
      p1.length
    have hn : n = a + min (declaredLen rx1 + 2 - rx1.length) p1.length := by
      cases hrun; rfl
    omega
  · rw [if_neg hlt] at hrun
    cases hread : engineRead ops h.isInitiator h.msgCount
        ((rx1 ++ p1.take (min (declaredLen rx1 + 2 - rx1.length)
          p1.length)).drop 2) with
    | none => simp only [hread] at hrun; cases hrun
    | some plain =>
      simp only [hread] at hrun
      have hc := processMessage_count ops h plain _ _ _ _ hrun
      have hmin := Nat.min_le_right (declaredLen rx1 + 2 - rx1.length)
        p1.length
      omega

/-- `inject_data` never consumes more bytes than it is offered. -/
theorem injectData_consumed_le (ops : CryptoOps) (h : HandshakeInProgress)
    (p : List Nat) (st : NoiseHandshake) (n : Nat)
    (hrun : injectData ops h p = .ok (st, n)) : n ≤ p.length := by
  by_cases hrem : h.rx_messages_remain = 0
  · rw [injectData_zero_remain ops h p hrem] at hrun
    have hn : n = 0 := by cases hrun; rfl
    omega
  · by_cases htiny : h.rx_buffer_encrypted.length + p.length < 2
    · rw [injectData_tiny ops h p hrem htiny] at hrun
      have hn : n = p.length := by cases hrun; rfl
      omega
    · rw [injectData_to_tail ops h p hrem htiny] at hrun
      have hb := injectDataTail_consumed_le ops h _ _ _ _ _ hrun
      rw [List.length_drop] at hb
      omega

/-- Well-formed inbound buffer: it never already holds a complete frame
(`inject_data` drains a frame the moment it completes, so between calls
the buffer is a strict prefix of `2 + declared-length` bytes). -/
def RxWf (h : HandshakeInProgress) : Prop :=
  h.rx_buffer_encrypted.length < 2 + declaredLen h.rx_buffer_encrypted

/-- The tail hands back well-formed in-progress states. -/
theorem injectDataTail_wf (ops : CryptoOps) (h : HandshakeInProgress)
    (rx1 p1 : List Nat) (a n : Nat) (h1 : HandshakeInProgress)
    (h2 : 2 ≤ rx1.length)
    (hrun : injectDataTail ops h rx1 p1 a = .ok (.InProgress h1, n)) :
    RxWf h1 := by
  simp only [injectDataTail] at hrun
  by_cases hlt : (rx1 ++ p1.take (min (declaredLen rx1 + 2 - rx1.length)
      p1.length)).length < declaredLen rx1 + 2
  · rw [if_pos hlt] at hrun
    have h1eq : h1 = { h with rx_buffer_encrypted := rx1 ++ p1.take (min (declaredLen rx1 + 2 - rx1.length) p1.length) } := by
      cases hrun; rfl
    subst h1eq
    unfold RxWf
    dsimp only
    rw [declaredLen_append rx1 _ h2]
    omega
  · rw [if_neg hlt] at hrun
    cases hread : engineRead ops h.isInitiator h.msgCount
        ((rx1 ++ p1.take (min (declaredLen rx1 + 2 - rx1.length)
          p1.length)).drop 2) with
    | none => simp only [hread] at hrun; cases hrun
    | some plain =>
      simp only [hread] at hrun
      have hempty := (processMessage_shape ops h plain _ _ _ _ hrun h1 rfl).2
      unfold RxWf
      rw [hempty]
      decide

/-- `inject_data` preserves inbound-buffer well-formedness. -/
theorem injectData_wf (ops : CryptoOps) (h : HandshakeInProgress)
    (p : List Nat) (n : Nat) (h1 : HandshakeInProgress) (hwf : RxWf h)
    (hrun : injectData ops h p = .ok (.InProgress h1, n)) : RxWf h1 := by
  by_cases hrem : h.rx_messages_remain = 0
  · rw [injectData_zero_remain ops h p hrem] at hrun
    have h1eq : h1 = h := by cases hrun; rfl
    subst h1eq
    exact hwf
  · by_cases htiny : h.rx_buffer_encrypted.length + p.length < 2
    · rw [injectData_tiny ops h p hrem htiny] at hrun
      have h1eq : h1 = { h with rx_buffer_encrypted :=
          h.rx_buffer_encrypted ++ p } := by
        cases hrun; rfl
      subst h1eq
      unfold RxWf
      dsimp only
      simp only [List.length_append] at htiny ⊢
      omega
    · rw [injectData_to_tail ops h p hrem htiny] at hrun
      exact injectDataTail_wf ops h _ _ _ _ h1
        (by simp only [List.length_append, List.length_take]; omega) hrun

/-- A tail call that consumed nothing was handed nothing and copied
nothing: either it merely re-buffered, or the buffer already held a full
frame. -/
theorem injectDataTail_zero (ops : CryptoOps) (h : HandshakeInProgress)
    (rx1 p1 : List Nat) (a : Nat) (st : NoiseHandshake)
    (hrun : injectDataTail ops h rx1 p1 a = .ok (st, 0)) :
    a = 0 ∧ min (declaredLen rx1 + 2 - rx1.length) p1.length = 0 ∧
      (st = .InProgress { h with rx_buffer_encrypted := rx1 } ∨
        declaredLen rx1 + 2 ≤ rx1.length) := by
  simp only [injectDataTail] at hrun
  by_cases hlt : (rx1 ++ p1.take (min (declaredLen rx1 + 2 - rx1.length)
      p1.length)).length < declaredLen rx1 + 2
  · rw [if_pos hlt] at hrun
    simp only [HRes.ok.injEq, Prod.mk.injEq] at hrun
    obtain ⟨hst, hn⟩ := hrun
    have ha : a = 0 := by omega
    have hm : min (declaredLen rx1 + 2 - rx1.length) p1.length = 0 := by
      omega
    refine ⟨ha, hm, Or.inl ?_⟩
    rw [← hst, hm]
    simp
  · rw [if_neg hlt] at hrun
    cases hread : engineRead ops h.isInitiator h.msgCount
        ((rx1 ++ p1.take (min (declaredLen rx1 + 2 - rx1.length)
          p1.length)).drop 2) with
    | none => simp only [hread] at hrun; cases hrun
    | some plain =>
      simp only [hread] at hrun
      have hc := processMessage_count ops h plain _ _ _ _ hrun
      have ha : a = 0 := by omega
      have hm : min (declaredLen rx1 + 2 - rx1.length) p1.length = 0 := by
        omega
      refine ⟨ha, hm, Or.inr ?_⟩
      rw [hm] at hlt
      simp only [List.take_zero, List.append_nil] at hlt
      omega

/-- On a well-formed state, consuming nothing means nothing happened. -/
theorem injectData_zero_of_wf (ops : CryptoOps) (h : HandshakeInProgress)
    (p : List Nat) (st : NoiseHandshake) (hwf : RxWf h)
    (hrun : injectData ops h p = .ok (st, 0)) : st = .InProgress h := by
  by_cases hrem : h.rx_messages_remain = 0
  · rw [injectData_zero_remain ops h p hrem] at hrun
    cases hrun; rfl
  · by_cases htiny : h.rx_buffer_encrypted.length + p.length < 2
    · rw [injectData_tiny ops h p hrem htiny] at hrun
      simp only [HRes.ok.injEq, Prod.mk.injEq] at hrun
      obtain ⟨hst, hn⟩ := hrun
      have hpnil : p = [] := List.length_eq_zero.mp hn
      subst hpnil
      rw [← hst]
      simp
    · rw [injectData_to_tail ops h p hrem htiny] at hrun
      obtain ⟨ha, hm, hd⟩ := injectDataTail_zero ops h _ _ _ _ hrun
      rcases hd with hst | hbad
      · rw [hst, ha]
        simp
      · exfalso
        rw [ha] at hbad
        simp only [List.take_zero, List.append_nil] at hbad
        unfold RxWf at hwf
        omega

/-- A well-formed state absorbs an empty offering without change. -/
theorem injectData_nil_wf (ops : CryptoOps) (h : HandshakeInProgress)
    (hwf : RxWf h) :
    injectData ops h [] = .ok (.InProgress h, 0) := by
  by_cases hrem : h.rx_messages_remain = 0
  · exact injectData_zero_remain ops h [] hrem
  · by_cases htiny : h.rx_buffer_encrypted.length + ([] : List Nat).length < 2
    · rw [injectData_tiny ops h [] hrem htiny]
      simp
    · rw [injectData_to_tail ops h [] hrem htiny]
      simp only [List.take_nil, List.drop_nil, List.append_nil]
      simp only [injectDataTail, List.length_nil, Nat.min_zero,
        List.take_zero, List.append_nil]
      rw [if_pos (by unfold RxWf at hwf; omega)]
      simp only [List.length_nil, Nat.add_zero] at htiny
      rw [show 2 - h.rx_buffer_encrypted.length + 0 = 0 from by omega]

/-- One round of the documented `inject_data` calling discipline ("this
function should be called again" while bytes were consumed): process one
call, and while it consumed something, recurse on the remaining bytes. -/
def driveStepFn (ops : CryptoOps)
    (rec : NoiseHandshake → List Nat → HRes (NoiseHandshake × Nat))
    (st : NoiseHandshake) (p : List Nat) : HRes (NoiseHandshake × Nat) :=
  match st with
  | .Success c pid => .ok (.Success c pid, 0)
  | .InProgress h =>
    match injectData ops h p with
    | .ok (st2, n) =>
      if n = 0 then .ok (st2, 0)
      else
        match rec st2 (p.drop n) with
        | .ok (st3, m) => .ok (st3, n + m)
        | e => e
    | e => e

/-- Fuelled iteration of `driveStepFn`. -/
def driveLoop (ops : CryptoOps) :
    Nat → NoiseHandshake → List Nat → HRes (NoiseHandshake × Nat)
  | 0, _, _ => .panic
  | fuel + 1, st, p => driveStepFn ops (driveLoop ops fuel) st p

/-- Feed a handshake the byte stream `p`, re-calling `inject_data` on the
unconsumed remainder while progress is made, as the source documents the
caller must.  Reports the reached state and the total bytes consumed. -/
def driveHandshake (ops : CryptoOps) (st : NoiseHandshake) (p : List Nat) :
    HRes (NoiseHandshake × Nat) :=
  driveLoop ops (p.length + 1) st p

/-- The step functional only calls its recursion argument on strictly
shorter remainders. -/
theorem driveStepFn_congr (ops : CryptoOps)
    (rec₁ rec₂ : NoiseHandshake → List Nat → HRes (NoiseHandshake × Nat))
    (st : NoiseHandshake) (p : List Nat)
    (hyp : ∀ st' p', p'.length < p.length → rec₁ st' p' = rec₂ st' p') :
    driveStepFn ops rec₁ st p = driveStepFn ops rec₂ st p := by
  unfold driveStepFn
  cases st with
  | Success c pid => rfl
  | InProgress h =>
    show (match injectData ops h p with
      | HRes.ok (st2, n) =>
        if n = 0 then HRes.ok (st2, 0) else
          match rec₁ st2 (p.drop n) with
          | .ok (st3, m) => .ok (st3, n + m)
          | e => e
      | e => e) =
      (match injectData ops h p with
      | HRes.ok (st2, n) =>
        if n = 0 then HRes.ok (st2, 0) else
          match rec₂ st2 (p.drop n) with
          | .ok (st3, m) => .ok (st3, n + m)
          | e => e
      | e => e)
    cases hinj : injectData ops h p with
    | ok pr =>
      obtain ⟨st2, n⟩ := pr
      show (if n = 0 then HRes.ok (st2, 0) else
          match rec₁ st2 (p.drop n) with
          | .ok (st3, m) => .ok (st3, n + m)
          | e => e) =
        (if n = 0 then .ok (st2, 0) else
          match rec₂ st2 (p.drop n) with
          | .ok (st3, m) => .ok (st3, n + m)
          | e => e)
      by_cases hn : n = 0
      · rw [if_pos hn, if_pos hn]
      · rw [if_neg hn, if_neg hn]
        rw [hyp st2 (p.drop n) (by
          have := injectData_consumed_le ops h p st2 n hinj
          rw [List.length_drop]
          omega)]
    | err e => rfl
    | panic => rfl

/-- Enough fuel makes the loop fuel-insensitive. -/
theorem driveLoop_mono (ops : CryptoOps) :
    ∀ (fuel : Nat) (st : NoiseHandshake) (p : List Nat),
      p.length + 1 ≤ fuel →
      driveLoop ops (fuel + 1) st p = driveLoop ops fuel st p := by
  intro fuel
  induction fuel with
  | zero => intro st p hf; exact absurd hf (by omega)
  | succ fuel ih =>
    intro st p hf
    show driveStepFn ops (driveLoop ops (fuel + 1)) st p =
      driveStepFn ops (driveLoop ops fuel) st p
    apply driveStepFn_congr
    intro st' p' hlt
    exact ih st' p' (by omega)

/-- Iterated form of `driveLoop_mono`. -/
theorem driveLoop_add (ops : CryptoOps) :
    ∀ (k fuel : Nat) (st : NoiseHandshake) (p : List Nat),
      p.length + 1 ≤ fuel →
      driveLoop ops (fuel + k) st p = driveLoop ops fuel st p := by
  intro k
  induction k with
  | zero => intro fuel st p _; rfl
  | succ k ih =>
    intro fuel st p hf
    rw [show fuel + (k + 1) = (fuel + k) + 1 from rfl]
    rw [driveLoop_mono ops (fuel + k) st p (by omega)]
    exact ih fuel st p hf

/-- Any sufficient fuel computes `driveHandshake`. -/
theorem driveLoop_eq_drive (ops : CryptoOps) (f : Nat)
    (st : NoiseHandshake) (p : List Nat) (hf : p.length + 1 ≤ f) :
    driveLoop ops f st p = driveHandshake ops st p := by
  unfold driveHandshake
  have h1 : f = (p.length + 1) + (f - (p.length + 1)) := by omega
  rw [h1, driveLoop_add ops _ _ st p (le_refl _)]

/-- Fuel-free unfolding equation of `driveHandshake`. -/
theorem drive_step (ops : CryptoOps) (st : NoiseHandshake) (p : List Nat) :
    driveHandshake ops st p =
      driveStepFn ops (driveHandshake ops) st p := by
  conv_lhs => rw [driveHandshake]
  show driveStepFn ops (driveLoop ops p.length) st p = _
  apply driveStepFn_congr
  intro st' p' hlt
  exact driveLoop_eq_drive ops _ st' p' (by omega)

/-- Driving a finished session consumes nothing. -/
theorem drive_success (ops : CryptoOps) (c : Noise) (pid : List Nat)
    (p : List Nat) :
    driveHandshake ops (.Success c pid) p = .ok (.Success c pid, 0) := rfl

/-- Driving the handshake on `p`, then on whatever was left plus `q`. -/
def driveCompose (ops : CryptoOps) (st : NoiseHandshake) (p q : List Nat) :
    HRes (NoiseHandshake × Nat) :=
  match driveHandshake ops st p with
  | .ok (st1, n1) =>
    match driveHandshake ops st1 (p.drop n1 ++ q) with
    | .ok (st2, n2) => .ok (st2, n1 + n2)
    | e => e
  | e => e

/-- A handshake state whose in-progress form has a well-formed inbound
buffer. -/
def HsWf (st : NoiseHandshake) : Prop :=
  ∀ h, st = .InProgress h → RxWf h

/-- Splitting an empty prefix off the stream changes nothing. -/
theorem drive_append_nil (ops : CryptoOps) (st : NoiseHandshake)
    (q : List Nat) (hwf : HsWf st) :
    driveHandshake ops st ([] ++ q) = driveCompose ops st [] q := by
  cases st with
  | Success c pid => rfl
  | InProgress h =>
    have hwfh : RxWf h := hwf h rfl
    have hd0 : driveHandshake ops (.InProgress h) [] =
        .ok (.InProgress h, 0) := by
      rw [drive_step]
      show (match injectData ops h [] with
        | .ok (st2, n) => if n = 0 then HRes.ok (st2, 0) else
            match driveHandshake ops st2 (([] : List Nat).drop n) with
            | .ok (st3, m) => .ok (st3, n + m)
            | e => e
        | e => e) = _
      rw [injectData_nil_wf ops h hwfh]
      rfl
    unfold driveCompose
    rw [hd0]
    show driveHandshake ops (.InProgress h) ([] ++ q) =
      (match driveHandshake ops (.InProgress h) ([] ++ q) with
       | .ok (st2, n2) => HRes.ok (st2, 0 + n2)
       | e => e)
    cases hd : driveHandshake ops (.InProgress h) ([] ++ q) with
    | ok pr =>
      obtain ⟨st2, n2⟩ := pr
      show HRes.ok (st2, n2) = .ok (st2, 0 + n2)
      rw [Nat.zero_add]
    | err e => rfl
    | panic => rfl

/-- Driving the handshake across a cut in the stream: feeding `p ++ q` is
feeding `p`, then feeding the unconsumed rest of `p` followed by `q`. -/
theorem drive_append (ops : CryptoOps) :
    ∀ (N : Nat) (st : NoiseHandshake) (p q : List Nat), HsWf st →
      p.length ≤ N →
      driveHandshake ops st (p ++ q) = driveCompose ops st p q := by
  intro N
  induction N with
  | zero =>
    intro st p q hwf hlen
    have hp : p = [] := List.length_eq_zero.mp (by omega)
    subst hp
    exact drive_append_nil ops st q hwf
  | succ N ih =>
    intro st p q hwf hlen
    by_cases hp : p = []
    · subst hp
      exact drive_append_nil ops st q hwf
    · cases st with
      | Success c pid => rfl
      | InProgress h =>
        have hwfh : RxWf h := hwf h rfl
        have hplen : ¬(p.length = 0) :=
          fun hc => hp (List.length_eq_zero.mp hc)
        rw [drive_step ops (.InProgress h) (p ++ q)]
        show (match injectData ops h (p ++ q) with
          | .ok (st2, n) => if n = 0 then HRes.ok (st2, 0) else
              match driveHandshake ops st2 ((p ++ q).drop n) with
              | .ok (st3, m) => .ok (st3, n + m)
              | e => e
          | e => e) = driveCompose ops (.InProgress h) p q
        rw [injectData_append ops h p q]
        cases hinj : injectData ops h p with
        | err e0 =>
          have hdp : driveHandshake ops (.InProgress h) p = .err e0 := by
            rw [drive_step]
            show (match injectData ops h p with
              | .ok (st2, n) => if n = 0 then HRes.ok (st2, 0) else
                  match driveHandshake ops st2 (p.drop n) with
                  | .ok (st3, m) => .ok (st3, n + m)
                  | e => e
              | e => e) = _
            rw [hinj]
          unfold driveCompose
          rw [hdp]
        | panic =>
          have hdp : driveHandshake ops (.InProgress h) p = .panic := by
            rw [drive_step]
            show (match injectData ops h p with
              | .ok (st2, n) => if n = 0 then HRes.ok (st2, 0) else
                  match driveHandshake ops st2 (p.drop n) with
                  | .ok (st3, m) => .ok (st3, n + m)
                  | e => e
              | e => e) = _
            rw [hinj]
          unfold driveCompose
          rw [hdp]
        | ok pr =>
          obtain ⟨st1, n1⟩ := pr
          cases st1 with
          | Success c pid =>
            show (if n1 = 0 then HRes.ok (.Success c pid, 0) else
                match driveHandshake ops (.Success c pid)
                  ((p ++ q).drop n1) with
                | .ok (st3, m) => .ok (st3, n1 + m)
                | e => e) = driveCompose ops (.InProgress h) p q
            rw [drive_success]
            by_cases hn1 : n1 = 0
            · subst hn1
              rw [if_pos rfl]
              have hdp : driveHandshake ops (.InProgress h) p =
                  .ok (.Success c pid, 0) := by
                rw [drive_step]
                show (match injectData ops h p with
                  | .ok (st2, n) => if n = 0 then HRes.ok (st2, 0) else
                      match driveHandshake ops st2 (p.drop n) with
                      | .ok (st3, m) => .ok (st3, n + m)
                      | e => e
                  | e => e) = _
                rw [hinj]
                rfl
              unfold driveCompose
              rw [hdp]
              show HRes.ok (NoiseHandshake.Success c pid, 0) =
                (match driveHandshake ops (.Success c pid)
                    (p.drop 0 ++ q) with
                 | .ok (st2, n2) => HRes.ok (st2, 0 + n2)
                 | e => e)
              rw [drive_success]
            · rw [if_neg hn1]
              have hdp : driveHandshake ops (.InProgress h) p =
                  .ok (.Success c pid, n1 + 0) := by
                rw [drive_step]
                show (match injectData ops h p with
                  | .ok (st2, n) => if n = 0 then HRes.ok (st2, 0) else
                      match driveHandshake ops st2 (p.drop n) with
                      | .ok (st3, m) => .ok (st3, n + m)
                      | e => e
                  | e => e) = _
                rw [hinj]
                show (if n1 = 0 then
                    HRes.ok (NoiseHandshake.Success c pid, 0) else
                    match driveHandshake ops (.Success c pid)
                      (p.drop n1) with
                    | .ok (st3, m) => .ok (st3, n1 + m)
                    | e => e) = _
                rw [if_neg hn1, drive_success]
              unfold driveCompose
              rw [hdp]
              show HRes.ok (NoiseHandshake.Success c pid, n1 + 0) =
                (match driveHandshake ops (.Success c pid)
                    (p.drop (n1 + 0) ++ q) with
                 | .ok (st2, n2) => HRes.ok (st2, (n1 + 0) + n2)
                 | e => e)
              rw [drive_success]
          | InProgress h1 =>
            show (match (if n1 = p.length ∧
                h1.rx_messages_remain = h.rx_messages_remain then
                (match injectData ops h1 q with
                 | .ok (st, n2) => HRes.ok (st, p.length + n2)
                 | e => e)
              else HRes.ok (.InProgress h1, n1)) with
              | .ok (st2, n) => if n = 0 then HRes.ok (st2, 0) else
                  match driveHandshake ops st2 ((p ++ q).drop n) with
                  | .ok (st3, m) => .ok (st3, n + m)
                  | e => e
              | e => e) = driveCompose ops (.InProgress h) p q
            by_cases hcond : n1 = p.length ∧
                h1.rx_messages_remain = h.rx_messages_remain
            · rw [if_pos hcond]
              obtain ⟨hn1, -⟩ := hcond
              subst hn1
              have hwf1 : RxWf h1 :=
                injectData_wf ops h p p.length h1 hwfh hinj
              have hd1 : driveHandshake ops (.InProgress h1) [] =
                  .ok (.InProgress h1, 0) := by
                rw [drive_step]
                show (match injectData ops h1 [] with
                  | .ok (st2, n) => if n = 0 then HRes.ok (st2, 0) else
                      match driveHandshake ops st2
                        (([] : List Nat).drop n) with
                      | .ok (st3, m) => .ok (st3, n + m)
                      | e => e
                  | e => e) = _
                rw [injectData_nil_wf ops h1 hwf1]
                rfl
              have hdp : driveHandshake ops (.InProgress h) p =
                  .ok (.InProgress h1, p.length) := by
                rw [drive_step]
                show (match injectData ops h p with
                  | .ok (st2, n) => if n = 0 then HRes.ok (st2, 0) else
                      match driveHandshake ops st2 (p.drop n) with
                      | .ok (st3, m) => .ok (st3, n + m)
                      | e => e
                  | e => e) = _
                rw [hinj]
                show (if p.length = 0 then HRes.ok (.InProgress h1, 0) else
                    match driveHandshake ops (.InProgress h1)
                      (p.drop p.length) with
                    | .ok (st3, m) => .ok (st3, p.length + m)
                    | e => e) = _
                rw [if_neg hplen, List.drop_length, hd1]
                rfl
              unfold driveCompose
              rw [hdp]
              show (match (match injectData ops h1 q with
                  | .ok (st, n2) => HRes.ok (st, p.length + n2)
                  | e => e) with
                | .ok (st2, n) => if n = 0 then HRes.ok (st2, 0) else
                    match driveHandshake ops st2 ((p ++ q).drop n) with
                    | .ok (st3, m) => .ok (st3, n + m)
                    | e => e
                | e => e) =
                (match driveHandshake ops (.InProgress h1)
                    (p.drop p.length ++ q) with
                 | .ok (st2, n2) => HRes.ok (st2, p.length + n2)
                 | e => e)
              rw [List.drop_length, List.nil_append]
              rw [drive_step ops (.InProgress h1) q]
              show (match (match injectData ops h1 q with
                  | .ok (st, n2) => HRes.ok (st, p.length + n2)
                  | e => e) with
                | .ok (st2, n) => if n = 0 then HRes.ok (st2, 0) else
                    match driveHandshake ops st2 ((p ++ q).drop n) with
                    | .ok (st3, m) => .ok (st3, n + m)
                    | e => e
                | e => e) =
                (match (match injectData ops h1 q with
                  | .ok (st2, n) => if n = 0 then HRes.ok (st2, 0) else
                      match driveHandshake ops st2 (q.drop n) with
                      | .ok (st3, m) => .ok (st3, n + m)
                      | e => e
                  | e => e) with
                | .ok (st2, n2) => HRes.ok (st2, p.length + n2)
                | e => e)
              cases hinj2 : injectData ops h1 q with
              | err e0 => rfl
              | panic => rfl
              | ok pr2 =>
                obtain ⟨st2, n2⟩ := pr2
                show (if p.length + n2 = 0 then HRes.ok (st2, 0) else
                    match driveHandshake ops st2
                      ((p ++ q).drop (p.length + n2)) with
                    | .ok (st3, m) => .ok (st3, p.length + n2 + m)
                    | e => e) =
                  (match (if n2 = 0 then HRes.ok (st2, 0) else
                      match driveHandshake ops st2 (q.drop n2) with
                      | .ok (st3, m) => .ok (st3, n2 + m)
                      | e => e) with
                  | .ok (st2bis, n2bis) => HRes.ok (st2bis, p.length + n2bis)
                  | e => e)
                rw [if_neg (show ¬(p.length + n2 = 0) from by omega)]
                rw [List.drop_append]
                by_cases hn2 : n2 = 0
                · subst hn2
                  have hst2 : st2 = .InProgress h1 :=
                    injectData_zero_of_wf ops h1 q st2 hwf1 hinj2
                  subst hst2
                  rw [if_pos rfl]
                  have hq0 : driveHandshake ops (.InProgress h1) q =
                      .ok (.InProgress h1, 0) := by
                    rw [drive_step]
                    show (match injectData ops h1 q with
                      | .ok (st2, n) => if n = 0 then HRes.ok (st2, 0) else
                          match driveHandshake ops st2 (q.drop n) with
                          | .ok (st3, m) => .ok (st3, n + m)
                          | e => e
                      | e => e) = _
                    rw [hinj2]
                    rfl
                  rw [List.drop_zero, hq0]
                · rw [if_neg hn2]
                  cases hdq : driveHandshake ops st2 (q.drop n2) with
                  | ok pr3 =>
                    obtain ⟨st3, m⟩ := pr3
                    show HRes.ok (st3, p.length + n2 + m) =
                      .ok (st3, p.length + (n2 + m))
                    rw [Nat.add_assoc]
                  | err e0 => rfl
                  | panic => rfl
            · rw [if_neg hcond]
              show (if n1 = 0 then HRes.ok (.InProgress h1, 0) else
                  match driveHandshake ops (.InProgress h1)
                    ((p ++ q).drop n1) with
                  | .ok (st3, m) => .ok (st3, n1 + m)
                  | e => e) = driveCompose ops (.InProgress h) p q
              by_cases hn1 : n1 = 0
              · subst hn1
                rw [if_pos rfl]
                have hh1 : h1 = h := by
                  have hz := injectData_zero_of_wf ops h p _ hwfh hinj
                  cases hz
                  rfl
                rw [hh1]
                rw [hh1] at hinj
                have hdp : driveHandshake ops (.InProgress h) p =
                    .ok (.InProgress h, 0) := by
                  rw [drive_step]
                  show (match injectData ops h p with
                    | .ok (st2, n) => if n = 0 then HRes.ok (st2, 0) else
                        match driveHandshake ops st2 (p.drop n) with
                        | .ok (st3, m) => .ok (st3, n + m)
                        | e => e
                    | e => e) = _
                  rw [hinj]
                  rfl
                unfold driveCompose
                rw [hdp]
                show HRes.ok (.InProgress h, 0) =
                  (match driveHandshake ops (.InProgress h)
                      (p.drop 0 ++ q) with
                   | .ok (st2, n2) => HRes.ok (st2, 0 + n2)
                   | e => e)
                rw [List.drop_zero]
                have hpq : injectData ops h (p ++ q) =
                    .ok (.InProgress h, 0) := by
                  rw [injectData_append ops h p q, hinj]
                  show (if (0 : Nat) = p.length ∧
                      h.rx_messages_remain = h.rx_messages_remain then
                      (match injectData ops h q with
                       | .ok (st, n2) => HRes.ok (st, p.length + n2)
                       | e => e)
                    else HRes.ok (.InProgress h, 0)) = _
                  rw [if_neg (by
                    rintro ⟨hc, -⟩
                    exact hp (List.length_eq_zero.mp hc.symm))]
                have hdpq : driveHandshake ops (.InProgress h) (p ++ q) =
                    .ok (.InProgress h, 0) := by
                  rw [drive_step]
                  show (match injectData ops h (p ++ q) with
                    | .ok (st2, n) => if n = 0 then HRes.ok (st2, 0) else
                        match driveHandshake ops st2 ((p ++ q).drop n) with
                        | .ok (st3, m) => .ok (st3, n + m)
                        | e => e
                    | e => e) = _
                  rw [hpq]
                  rfl
                rw [hdpq]
              · rw [if_neg hn1]
                have hle : n1 ≤ p.length :=
                  injectData_consumed_le ops h p _ n1 hinj
                have hwf1 : RxWf h1 := injectData_wf ops h p n1 h1 hwfh hinj
                rw [List.drop_append_of_le_length hle]
                rw [ih (.InProgress h1) (p.drop n1) q
                  (fun h' hh' => by cases hh'; exact hwf1)
                  (by rw [List.length_drop]; omega)]
                have hdp : driveHandshake ops (.InProgress h) p =
                    (match driveHandshake ops (.InProgress h1)
                        (p.drop n1) with
                     | .ok (st3, m) => HRes.ok (st3, n1 + m)
                     | e => e) := by
                  rw [drive_step]
                  show (match injectData ops h p with
                    | .ok (st2, n) => if n = 0 then HRes.ok (st2, 0) else
                        match driveHandshake ops st2 (p.drop n) with
                        | .ok (st3, m) => .ok (st3, n + m)
                        | e => e
                    | e => e) = _
                  rw [hinj]
                  show (if n1 = 0 then HRes.ok (.InProgress h1, 0) else
                      match driveHandshake ops (.InProgress h1)
                        (p.drop n1) with
                      | .ok (st3, m) => .ok (st3, n1 + m)
                      | e => e) = _
                  rw [if_neg hn1]
                unfold driveCompose
                rw [hdp]
                cases hdq : driveHandshake ops (.InProgress h1)
                    (p.drop n1) with
                | err e0 => rfl
                | panic => rfl
                | ok pr2 =>
                  obtain ⟨stm, m1⟩ := pr2
                  show (match (match driveHandshake ops stm
                      ((p.drop n1).drop m1 ++ q) with
                    | .ok (st2bis, n2bis) => HRes.ok (st2bis, m1 + n2bis)
                    | e => e) with
                  | .ok (st3, m) => HRes.ok (st3, n1 + m)
                  | e => e) =
                    (match driveHandshake ops stm
                        (p.drop (n1 + m1) ++ q) with
                     | .ok (st2bis, n2bis) =>
                        HRes.ok (st2bis, n1 + m1 + n2bis)
                     | e => e)
                  rw [show p.drop (n1 + m1) = (p.drop n1).drop m1 from by
                    rw [List.drop_drop, Nat.add_comm n1 m1]]
                  cases hfin : driveHandshake ops stm
                      ((p.drop n1).drop m1 ++ q) with
                  | ok pr4 =>
                    obtain ⟨st4, n4⟩ := pr4
                    show HRes.ok (st4, n1 + (m1 + n4)) =
                      .ok (st4, n1 + m1 + n4)
                    rw [Nat.add_assoc]
                  | err e0 => rfl
                  | panic => rfl

/-- Well-formed transport inbound buffer: strictly shorter than the frame
it announces (between calls the loop has drained every complete frame). -/
def NoiseWf (s : Noise) : Prop :=
  s.rx_buffer_encrypted.length < 2 + declaredLen s.rx_buffer_encrypted

/-- A well-formed transport state absorbs an empty offering unchanged. -/
theorem inject_nil_wf (ops : CryptoOps) (s : Noise) (hwf : NoiseWf s) :
    Noise.inject_inbound_data ops s [] = .ok s 0 := by
  by_cases hthr : rxQueueThreshold ≤ s.rx_buffer_decrypted.length
  · exact inject_at_threshold ops s [] hthr
  · by_cases hsmall :
        s.rx_buffer_encrypted.length + ([] : List Nat).length < 2
    · rw [inject_buffer ops s [] hthr hsmall, List.append_nil]
      rfl
    · rw [inject_to_tail ops s [] hthr hsmall]
      unfold injectTail
      rw [if_pos (by
        simp only [List.take_nil, List.drop_nil, List.append_nil,
          List.length_nil]
        unfold NoiseWf at hwf
        omega)]
      simp only [List.take_nil, List.drop_nil, List.append_nil,
        List.length_nil] at hsmall ⊢
      rw [show 2 - s.rx_buffer_encrypted.length + 0 = 0 from by omega]

/-- `inject_inbound_data` preserves transport buffer well-formedness. -/
theorem inject_wf (ops : CryptoOps) :
    ∀ (N : Nat) (s : Noise) (p : List Nat) (s' : Noise) (n : Nat),
      s.rx_buffer_encrypted.length + p.length ≤ N → NoiseWf s →
      Noise.inject_inbound_data ops s p = .ok s' n → NoiseWf s' := by
  intro N
  induction N with
  | zero =>
    intro s p s' n hN hwf hrun
    have hrx : s.rx_buffer_encrypted = [] :=
      List.length_eq_zero.mp (by omega)
    have hp : p = [] := List.length_eq_zero.mp (by omega)
    subst hp
    rw [inject_nil_wf ops s hwf] at hrun
    have hs : s' = s := by cases hrun; rfl
    subst hs
    exact hwf
  | succ N ih =>
    intro s p s' n hN hwf hrun
    by_cases hthr : rxQueueThreshold ≤ s.rx_buffer_decrypted.length
    · rw [inject_at_threshold ops s p hthr] at hrun
      have hs : s' = s := by cases hrun; rfl
      subst hs
      exact hwf
    · by_cases hsmall : s.rx_buffer_encrypted.length + p.length < 2
      · rw [inject_buffer ops s p hthr hsmall] at hrun
        have hs : s' = { s with rx_buffer_encrypted :=
            s.rx_buffer_encrypted ++ p } := by
          cases hrun; rfl
        subst hs
        unfold NoiseWf
        dsimp only
        simp only [List.length_append] at hsmall ⊢
        omega
      · rw [inject_to_tail ops s p hthr hsmall] at hrun
        unfold injectTail at hrun
        set RX1 := s.rx_buffer_encrypted ++
          p.take (2 - s.rx_buffer_encrypted.length) with hRX1
        set P1 := p.drop (2 - s.rx_buffer_encrypted.length) with hP1
        have h2rx1 : 2 ≤ RX1.length := by
          rw [hRX1]
          simp only [List.length_append, List.length_take]
          omega
        have hP1len : P1.length =
            p.length - (2 - s.rx_buffer_encrypted.length) := by
          rw [hP1, List.length_drop]
        by_cases hpart : RX1.length + P1.length < declaredLen RX1 + 2
        · rw [if_pos hpart] at hrun
          have hs : s' = { s with rx_buffer_encrypted := RX1 ++ P1 } := by
            cases hrun; rfl
          subst hs
          unfold NoiseWf
          dsimp only
          rw [declaredLen_append RX1 P1 h2rx1]
          simp only [List.length_append]
          omega
        · rw [if_neg hpart] at hrun
          by_cases hun : declaredLen RX1 < 16
          · rw [if_pos hun] at hrun
            cases hrun
          · rw [if_neg hun] at hrun
            cases htr : ops.tread s.readNonce
                ((RX1 ++ P1.take (declaredLen RX1 + 2 -
                  RX1.length)).drop 2) with
            | none => simp only [htr] at hrun; cases hrun
            | some plain =>
              simp only [htr] at hrun
              cases hrec : Noise.inject_inbound_data ops
                  { s with
                    readNonce := s.readNonce + 1
                    rx_buffer_encrypted := []
                    rx_buffer_decrypted := s.rx_buffer_decrypted ++
                      plain.take (declaredLen RX1 - 16) }
                  (P1.drop (declaredLen RX1 + 2 - RX1.length)) with
              | ok s2 m =>
                simp only [hrec] at hrun
                have hs : s' = s2 := by cases hrun; rfl
                subst hs
                refine ih _ _ s' m ?_ ?_ hrec
                · dsimp only
                  rw [List.length_nil, List.length_drop, hP1len]
                  omega
                · unfold NoiseWf
                  dsimp only
                  decide
              | cipherError => simp only [hrec] at hrun; cases hrun
              | panic => simp only [hrec] at hrun; cases hrun

/-- A call that did not consume everything stopped at the backpressure
threshold. -/
theorem inject_partial_threshold (ops : CryptoOps) (s : Noise)
    (p : List Nat) (s' : Noise) (n : Nat)
    (hrun : Noise.inject_inbound_data ops s p = .ok s' n)
    (hlt : n < p.length) :
    rxQueueThreshold ≤ s'.rx_buffer_decrypted.length := by
  unfold Noise.inject_inbound_data at hrun
  exact injectLoop_partial_threshold ops _ s p s' n hrun hlt

/-- Result of feeding a transport stream chunk by chunk: reached state,
bytes still unconsumed, and total bytes consumed. -/
inductive TChunkRes where
  | ok (s : Noise) (leftover : List Nat) (total : Nat)
  | cipherError
  | panic
deriving DecidableEq, Repr

/-- Feed the transport chunks in order, each call re-offering whatever the
previous call left unconsumed, as the caller of `inject_inbound_data`
does. -/
def injectChunks (ops : CryptoOps) :
    Noise → List Nat → Nat → List (List Nat) → TChunkRes
  | s, leftover, total, [] => .ok s leftover total
  | s, leftover, total, c :: cs =>
    match Noise.inject_inbound_data ops s (leftover ++ c) with
    | .ok s1 n1 =>
      injectChunks ops s1 ((leftover ++ c).drop n1) (total + n1) cs
    | .cipherError => .cipherError
    | .panic => .panic

/-- Chunked transport feeding computes exactly the single-call result on
the concatenated stream. -/
theorem injectChunks_flatten (ops : CryptoOps) :
    ∀ (cs : List (List Nat)) (s : Noise) (leftover : List Nat)
      (total : Nat), NoiseWf s →
      (leftover = [] ∨ rxQueueThreshold ≤ s.rx_buffer_decrypted.length) →
      injectChunks ops s leftover total cs =
        match Noise.inject_inbound_data ops s (leftover ++ cs.flatten) with
        | .ok s' n => .ok s' ((leftover ++ cs.flatten).drop n) (total + n)
        | .cipherError => .cipherError
        | .panic => .panic := by
  intro cs
  induction cs with
  | nil =>
    intro s leftover total hwf hinv
    simp only [List.flatten_nil, List.append_nil]
    rcases hinv with hleft | hthr
    · subst hleft
      rw [inject_nil_wf ops s hwf]
      show TChunkRes.ok s [] total = .ok s (([] : List Nat).drop 0) (total + 0)
      rfl
    · rw [inject_at_threshold ops s leftover hthr]
      show TChunkRes.ok s leftover total = .ok s (leftover.drop 0) (total + 0)
      rw [List.drop_zero]
      rfl
  | cons c cs ihc =>
    intro s leftover total hwf hinv
    show (match Noise.inject_inbound_data ops s (leftover ++ c) with
      | .ok s1 n1 =>
        injectChunks ops s1 ((leftover ++ c).drop n1) (total + n1) cs
      | .cipherError => TChunkRes.cipherError
      | .panic => TChunkRes.panic) = _
    rw [List.flatten_cons]
    rw [show leftover ++ (c ++ cs.flatten) = (leftover ++ c) ++ cs.flatten
      from (List.append_assoc leftover c cs.flatten).symm]
    rw [inject_inbound_append ops
      (s.rx_buffer_encrypted.length + (leftover ++ c).length) s
      (leftover ++ c) cs.flatten (le_refl _)]
    unfold injectCompose
    cases hinj : Noise.inject_inbound_data ops s (leftover ++ c) with
    | cipherError => rfl
    | panic => rfl
    | ok s1 n1 =>
      have hn1le : n1 ≤ (leftover ++ c).length :=
        inject_consumed_le ops s (leftover ++ c) s1 n1 hinj
      have hwf1 : NoiseWf s1 :=
        inject_wf ops (s.rx_buffer_encrypted.length +
          (leftover ++ c).length) s (leftover ++ c) s1 n1 (le_refl _)
          hwf hinj
      have hinv1 : (leftover ++ c).drop n1 = [] ∨
          rxQueueThreshold ≤ s1.rx_buffer_decrypted.length := by
        rcases Nat.lt_or_ge n1 (leftover ++ c).length with hlt | hge
        · exact Or.inr (inject_partial_threshold ops s _ s1 n1 hinj hlt)
        · left
          rw [List.drop_eq_nil_iff]
          omega
      show injectChunks ops s1 ((leftover ++ c).drop n1) (total + n1) cs =
        (match (match Noise.inject_inbound_data ops s1
            ((leftover ++ c).drop n1 ++ cs.flatten) with
          | .ok s2 n2 => TRes.ok s2 (n1 + n2)
          | e => e) with
        | .ok s' n => TChunkRes.ok s'
            (((leftover ++ c) ++ cs.flatten).drop n) (total + n)
        | .cipherError => TChunkRes.cipherError
        | .panic => TChunkRes.panic)
      rw [ihc s1 ((leftover ++ c).drop n1) (total + n1) hwf1 hinv1]
      cases hrest : Noise.inject_inbound_data ops s1
          ((leftover ++ c).drop n1 ++ cs.flatten) with
      | cipherError => rfl
      | panic => rfl
      | ok s2 n2 =>
        show TChunkRes.ok s2 (((leftover ++ c).drop n1 ++
            cs.flatten).drop n2) ((total + n1) + n2) =
          .ok s2 (((leftover ++ c) ++ cs.flatten).drop (n1 + n2))
            (total + (n1 + n2))
        rw [show ((leftover ++ c) ++ cs.flatten).drop (n1 + n2) =
            ((leftover ++ c).drop n1 ++ cs.flatten).drop n2 from by
          rw [← List.drop_drop, List.drop_append_of_le_length hn1le]]
        rw [Nat.add_assoc]

/-- A handshake state on which `inject_data` consumes nothing: finished, or
in progress with no inbound message pending. -/
def Stall (st : NoiseHandshake) : Prop :=
  (∃ c pid, st = .Success c pid) ∨
    (∃ h, st = .InProgress h ∧ h.rx_messages_remain = 0)

/-- On a well-formed state, a call that consumed nothing while bytes were
offered had no message left to read. -/
theorem injectData_stall_of_zero (ops : CryptoOps)
    (h : HandshakeInProgress) (p : List Nat) (st : NoiseHandshake)
    (hwf : RxWf h) (hp : ¬p = [])
    (hrun : injectData ops h p = .ok (st, 0)) :
    h.rx_messages_remain = 0 := by
  by_cases hrem : h.rx_messages_remain = 0
  · exact hrem
  · exfalso
    by_cases htiny : h.rx_buffer_encrypted.length + p.length < 2
    · rw [injectData_tiny ops h p hrem htiny] at hrun
      simp only [HRes.ok.injEq, Prod.mk.injEq] at hrun
      exact hp (List.length_eq_zero.mp hrun.2)
    · rw [injectData_to_tail ops h p hrem htiny] at hrun
      obtain ⟨ha, hm, hd⟩ := injectDataTail_zero ops h _ _ _ _ hrun
      unfold RxWf at hwf
      rcases hd with hst | hbad
      · -- the copied count was zero although a nonempty suffix was offered
        rw [ha] at hm
        simp only [List.take_zero, List.append_nil, List.length_drop] at hm
        have hpl : ¬(p.length = 0) :=
          fun hc => hp (List.length_eq_zero.mp hc)
        omega
      · rw [ha] at hbad
        simp only [List.take_zero, List.append_nil] at hbad
        omega

/-- Stalled states ignore any offering. -/
theorem drive_stall (ops : CryptoOps) (st : NoiseHandshake) (p : List Nat)
    (hstall : Stall st) : driveHandshake ops st p = .ok (st, 0) := by
  rcases hstall with ⟨c, pid, rfl⟩ | ⟨h, rfl, hrem⟩
  · exact drive_success ops c pid p
  · rw [drive_step]
    show (match injectData ops h p with
      | .ok (st2, n) => if n = 0 then HRes.ok (st2, 0) else
          match driveHandshake ops st2 (p.drop n) with
          | .ok (st3, m) => .ok (st3, n + m)
          | e => e
      | e => e) = _
    rw [injectData_zero_remain ops h p hrem]
    rfl

/-- A well-formed handshake state absorbs an empty offering unchanged. -/
theorem drive_nil_wf (ops : CryptoOps) (st : NoiseHandshake)
    (hwf : HsWf st) : driveHandshake ops st [] = .ok (st, 0) := by
  cases st with
  | Success c pid => exact drive_success ops c pid []
  | InProgress h =>
    rw [drive_step]
    show (match injectData ops h [] with
      | .ok (st2, n) => if n = 0 then HRes.ok (st2, 0) else
          match driveHandshake ops st2 (([] : List Nat).drop n) with
          | .ok (st3, m) => .ok (st3, n + m)
          | e => e
      | e => e) = _
    rw [injectData_nil_wf ops h (hwf h rfl)]
    rfl

/-- The drive loop never consumes more than it is offered. -/
theorem driveLoop_consumed_le (ops : CryptoOps) :
    ∀ (fuel : Nat) (st : NoiseHandshake) (p : List Nat)
      (st' : NoiseHandshake) (n : Nat),
      driveLoop ops fuel st p = .ok (st', n) → n ≤ p.length := by
  intro fuel
  induction fuel with
  | zero => intro st p st' n hrun; simp [driveLoop] at hrun
  | succ fuel ih =>
    intro st p st' n hrun
    cases st with
    | Success c pid =>
      simp only [driveLoop, driveStepFn] at hrun
      have hn : n = 0 := by cases hrun; rfl
      omega
    | InProgress h =>
      simp only [driveLoop, driveStepFn] at hrun
      cases hinj : injectData ops h p with
      | err e => simp only [hinj] at hrun; cases hrun
      | panic => simp only [hinj] at hrun; cases hrun
      | ok pr =>
        obtain ⟨st2, n2⟩ := pr
        simp only [hinj] at hrun
        have hn2 := injectData_consumed_le ops h p st2 n2 hinj
        by_cases h0 : n2 = 0
        · rw [if_pos h0] at hrun
          have hn : n = 0 := by cases hrun; rfl
          omega
        · rw [if_neg h0] at hrun
          cases hrec : driveLoop ops fuel st2 (p.drop n2) with
          | ok pr2 =>
            obtain ⟨st3, m⟩ := pr2
            simp only [hrec] at hrun
            have hm := ih st2 (p.drop n2) st3 m hrec
            rw [List.length_drop] at hm
            have hn : n = n2 + m := by cases hrun; rfl
            omega
          | err e => simp only [hrec] at hrun; cases hrun
          | panic => simp only [hrec] at hrun; cases hrun

/-- `driveHandshake` never consumes more than it is offered. -/
theorem drive_consumed_le (ops : CryptoOps) (st : NoiseHandshake)
    (p : List Nat) (st' : NoiseHandshake) (n : Nat)
    (hrun : driveHandshake ops st p = .ok (st', n)) : n ≤ p.length := by
  unfold driveHandshake at hrun
  exact driveLoop_consumed_le ops _ st p st' n hrun

/-- The drive loop preserves handshake well-formedness. -/
theorem driveLoop_wf (ops : CryptoOps) :
    ∀ (fuel : Nat) (st : NoiseHandshake) (p : List Nat)
      (st' : NoiseHandshake) (n : Nat), HsWf st →
      driveLoop ops fuel st p = .ok (st', n) → HsWf st' := by
  intro fuel
  induction fuel with
  | zero => intro st p st' n hwf hrun; simp [driveLoop] at hrun
  | succ fuel ih =>
    intro st p st' n hwf hrun
    cases st with
    | Success c pid =>
      simp only [driveLoop, driveStepFn] at hrun
      have hs : st' = .Success c pid := by cases hrun; rfl
      subst hs
      intro h2 hh2
      cases hh2
    | InProgress h =>
      simp only [driveLoop, driveStepFn] at hrun
      cases hinj : injectData ops h p with
      | err e => simp only [hinj] at hrun; cases hrun
      | panic => simp only [hinj] at hrun; cases hrun
      | ok pr =>
        obtain ⟨st2, n2⟩ := pr
        simp only [hinj] at hrun
        have hwf2 : HsWf st2 := by
          intro h2 hh2
          refine injectData_wf ops h p n2 h2 (hwf h rfl) ?_
          rw [← hh2]
          exact hinj
        by_cases h0 : n2 = 0
        · rw [if_pos h0] at hrun
          have hs : st' = st2 := by cases hrun; rfl
          subst hs
          exact hwf2
        · rw [if_neg h0] at hrun
          cases hrec : driveLoop ops fuel st2 (p.drop n2) with
          | ok pr2 =>
            obtain ⟨st3, m⟩ := pr2
            simp only [hrec] at hrun
            have hs : st' = st3 := by cases hrun; rfl
            subst hs
            exact ih st2 (p.drop n2) st' m hwf2 hrec
          | err e => simp only [hrec] at hrun; cases hrun
          | panic => simp only [hrec] at hrun; cases hrun

/-- `driveHandshake` preserves handshake well-formedness. -/
theorem drive_wf (ops : CryptoOps) (st : NoiseHandshake) (p : List Nat)
    (st' : NoiseHandshake) (n : Nat) (hwf : HsWf st)
    (hrun : driveHandshake ops st p = .ok (st', n)) : HsWf st' := by
  unfold driveHandshake at hrun
  exact driveLoop_wf ops _ st p st' n hwf hrun

/-- A drive that did not consume everything has reached a stalled state. -/
theorem driveLoop_partial_stall (ops : CryptoOps) :
    ∀ (fuel : Nat) (st : NoiseHandshake) (p : List Nat)
      (st' : NoiseHandshake) (n : Nat), HsWf st →
      driveLoop ops fuel st p = .ok (st', n) → n < p.length →
      Stall st' := by
  intro fuel
  induction fuel with
  | zero => intro st p st' n hwf hrun; simp [driveLoop] at hrun
  | succ fuel ih =>
    intro st p st' n hwf hrun hlt
    cases st with
    | Success c pid =>
      simp only [driveLoop, driveStepFn] at hrun
      have hs : st' = .Success c pid := by cases hrun; rfl
      subst hs
      exact Or.inl ⟨c, pid, rfl⟩
    | InProgress h =>
      simp only [driveLoop, driveStepFn] at hrun
      cases hinj : injectData ops h p with
      | err e => simp only [hinj] at hrun; cases hrun
      | panic => simp only [hinj] at hrun; cases hrun
      | ok pr =>
        obtain ⟨st2, n2⟩ := pr
        simp only [hinj] at hrun
        have hn2le := injectData_consumed_le ops h p st2 n2 hinj
        have hwf2 : HsWf st2 := by
          intro h2 hh2
          refine injectData_wf ops h p n2 h2 (hwf h rfl) ?_
          rw [← hh2]
          exact hinj
        by_cases h0 : n2 = 0
        · subst h0
          rw [if_pos rfl] at hrun
          have hs : st' = st2 := by cases hrun; rfl
          subst hs
          have hn0 : n = 0 := by cases hrun; rfl
          have hpne : ¬p = [] := by
            intro hc
            subst hc
            simp at hlt
          have hst2 : st' = .InProgress h :=
            injectData_zero_of_wf ops h p st' (hwf h rfl) hinj
          exact Or.inr ⟨h, hst2,
            injectData_stall_of_zero ops h p st' (hwf h rfl) hpne hinj⟩
        · rw [if_neg h0] at hrun
          cases hrec : driveLoop ops fuel st2 (p.drop n2) with
          | ok pr2 =>
            obtain ⟨st3, m⟩ := pr2
            simp only [hrec] at hrun
            have hs : st' = st3 := by cases hrun; rfl
            have hn : n = n2 + m := by cases hrun; rfl
            subst hs
            refine ih st2 (p.drop n2) st' m hwf2 hrec ?_
            rw [List.length_drop]
            omega
          | err e => simp only [hrec] at hrun; cases hrun
          | panic => simp only [hrec] at hrun; cases hrun

/-- A call of the driver that did not consume everything has stalled. -/
theorem drive_partial_stall (ops : CryptoOps) (st : NoiseHandshake)
    (p : List Nat) (st' : NoiseHandshake) (n : Nat) (hwf : HsWf st)
    (hrun : driveHandshake ops st p = .ok (st', n)) (hlt : n < p.length) :
    Stall st' := by
  unfold driveHandshake at hrun
  exact driveLoop_partial_stall ops _ st p st' n hwf hrun hlt

/-- Feed the handshake chunks in order (driving each chunk to quiescence,
as the source documents), each call re-offering whatever the previous one
left unconsumed.  Returns state, unconsumed bytes and total consumed. -/
def driveChunks (ops : CryptoOps) :
    NoiseHandshake → List Nat → Nat → List (List Nat) →
    HRes (NoiseHandshake × List Nat × Nat)
  | st, leftover, total, [] => .ok (st, leftover, total)
  | st, leftover, total, c :: cs =>
    match driveHandshake ops st (leftover ++ c) with
    | .ok (st1, n1) =>
      driveChunks ops st1 ((leftover ++ c).drop n1) (total + n1) cs
    | .err e => .err e
    | .panic => .panic

/-- Chunked handshake feeding computes exactly the single-stream result. -/
theorem driveChunks_flatten (ops : CryptoOps) :
    ∀ (cs : List (List Nat)) (st : NoiseHandshake) (leftover : List Nat)
      (total : Nat), HsWf st → (leftover = [] ∨ Stall st) →
      driveChunks ops st leftover total cs =
        match driveHandshake ops st (leftover ++ cs.flatten) with
        | .ok (st', n) =>
          .ok (st', (leftover ++ cs.flatten).drop n, total + n)
        | .err e => .err e
        | .panic => .panic := by
  intro cs
  induction cs with
  | nil =>
    intro st leftover total hwf hinv
    simp only [List.flatten_nil, List.append_nil]
    rcases hinv with hleft | hstall
    · subst hleft
      rw [drive_nil_wf ops st hwf]
      show HRes.ok (st, [], total) =
        .ok (st, ([] : List Nat).drop 0, total + 0)
      rfl
    · rw [drive_stall ops st leftover hstall]
      show HRes.ok (st, leftover, total) =
        .ok (st, leftover.drop 0, total + 0)
      rw [List.drop_zero]
      rfl
  | cons c cs ihc =>
    intro st leftover total hwf hinv
    show (match driveHandshake ops st (leftover ++ c) with
      | .ok (st1, n1) =>
        driveChunks ops st1 ((leftover ++ c).drop n1) (total + n1) cs
      | .err e => HRes.err e
      | .panic => HRes.panic) = _
    rw [List.flatten_cons]
    rw [show leftover ++ (c ++ cs.flatten) = (leftover ++ c) ++ cs.flatten
      from (List.append_assoc leftover c cs.flatten).symm]
    rw [drive_append ops (leftover ++ c).length st (leftover ++ c)
      cs.flatten hwf (le_refl _)]
    unfold driveCompose
    cases hdr : driveHandshake ops st (leftover ++ c) with
    | err e => rfl
    | panic => rfl
    | ok pr =>
      obtain ⟨st1, n1⟩ := pr
      have hn1le : n1 ≤ (leftover ++ c).length :=
        drive_consumed_le ops st (leftover ++ c) st1 n1 hdr
      have hwf1 : HsWf st1 := drive_wf ops st (leftover ++ c) st1 n1 hwf hdr
      have hinv1 : (leftover ++ c).drop n1 = [] ∨ Stall st1 := by
        rcases Nat.lt_or_ge n1 (leftover ++ c).length with hlt | hge
        · exact Or.inr
            (drive_partial_stall ops st (leftover ++ c) st1 n1 hwf hdr hlt)
        · left
          rw [List.drop_eq_nil_iff]
          omega
      show driveChunks ops st1 ((leftover ++ c).drop n1) (total + n1) cs =
        (match (match driveHandshake ops st1
            ((leftover ++ c).drop n1 ++ cs.flatten) with
          | .ok (st2, n2) => HRes.ok (st2, n1 + n2)
          | e => e) with
        | .ok (st', n) => HRes.ok (st',
            ((leftover ++ c) ++ cs.flatten).drop n, total + n)
        | .err e => HRes.err e
        | .panic => HRes.panic)
      rw [ihc st1 ((leftover ++ c).drop n1) (total + n1) hwf1 hinv1]
      cases hrest : driveHandshake ops st1
          ((leftover ++ c).drop n1 ++ cs.flatten) with
      | err e => rfl
      | panic => rfl
      | ok pr2 =>
        obtain ⟨st2, n2⟩ := pr2
        show HRes.ok (st2, ((leftover ++ c).drop n1 ++ cs.flatten).drop n2,
            (total + n1) + n2) =
          .ok (st2, ((leftover ++ c) ++ cs.flatten).drop (n1 + n2),
            total + (n1 + n2))
        rw [show ((leftover ++ c) ++ cs.flatten).drop (n1 + n2) =
            ((leftover ++ c).drop n1 ++ cs.flatten).drop n2 from by
          rw [← List.drop_drop, List.drop_append_of_le_length hn1le]]
        rw [Nat.add_assoc]

/-- C7: feeding the complete handshake byte stream to `inject_data` (under
the call-again-while-it-consumes discipline its documentation prescribes,
`driveHandshake`), or the complete transport byte stream to
`inject_inbound_data`, in one single call produces the same final session
state, the same unconsumed remainder and the same consumed count as
feeding the identical byte sequence split into arbitrary chunks, in
order, down to one byte per chunk — for any starting state whose inbound
buffer is well formed, as every reachable one is. -/
theorem claim_C7 (ops : CryptoOps) (cs : List (List Nat))
    (st : NoiseHandshake) (s : Noise) (hst : HsWf st) (hs : NoiseWf s) :
    driveChunks ops st [] 0 cs =
      (match driveHandshake ops st cs.flatten with
       | .ok (st', n) => .ok (st', cs.flatten.drop n, n)
       | .err e => .err e
       | .panic => .panic) ∧
    injectChunks ops s [] 0 cs =
      (match Noise.inject_inbound_data ops s cs.flatten with
       | .ok s' n => .ok s' (cs.flatten.drop n) n
       | .cipherError => .cipherError
       | .panic => .panic) := by
  constructor
  · rw [driveChunks_flatten ops cs st [] 0 hst (Or.inl rfl)]
    rw [List.nil_append]
    cases hd : driveHandshake ops st cs.flatten with
    | ok pr =>
      obtain ⟨st', n⟩ := pr
      show HRes.ok (st', cs.flatten.drop n, 0 + n) =
        .ok (st', cs.flatten.drop n, n)
      rw [Nat.zero_add]
    | err e => rfl
    | panic => rfl
  · rw [injectChunks_flatten ops cs s [] 0 hs (Or.inl rfl)]
    rw [List.nil_append]
    cases hd : Noise.inject_inbound_data ops s cs.flatten with
    | ok s' n =>
      show TChunkRes.ok s' (cs.flatten.drop n) (0 + n) =
        .ok s' (cs.flatten.drop n) n
      rw [Nat.zero_add]
    | cipherError => rfl
    | panic => rfl

/-- Witness for C7 at a concrete state and chunk list. -/
theorem claim_C7_witness :
    HsWf (NoiseHandshake.InProgress sampleDone) ∧ NoiseWf sampleNoise ∧
    (driveChunks sampleOps (.InProgress sampleDone) [] 0 [[7], [8, 9]] =
      match driveHandshake sampleOps (.InProgress sampleDone)
          ([[7], [8, 9]] : List (List Nat)).flatten with
      | .ok (st', n) => .ok (st',
          (([[7], [8, 9]] : List (List Nat)).flatten).drop n, n)
      | .err e => .err e
      | .panic => .panic) ∧
    (injectChunks sampleOps sampleNoise [] 0 [[7], [8, 9]] =
      match Noise.inject_inbound_data sampleOps sampleNoise
          ([[7], [8, 9]] : List (List Nat)).flatten with
      | .ok s' n => .ok s'
          ((([[7], [8, 9]] : List (List Nat)).flatten).drop n) n
      | .cipherError => .cipherError
      | .panic => .panic) := by
  have h1 : HsWf (NoiseHandshake.InProgress sampleDone) := by
    intro h hh
    cases hh
    unfold RxWf
    decide
  have h2 : NoiseWf sampleNoise := by
    unfold NoiseWf
    decide
  exact ⟨h1, h2,
    (claim_C7 sampleOps [[7], [8, 9]] (.InProgress sampleDone)
      sampleNoise h1 h2).1,
    (claim_C7 sampleOps [[7], [8, 9]] (.InProgress sampleDone)
      sampleNoise h1 h2).2⟩

end NoiseSpec
